import Mathlib

/-!
Verification of the cidsem core against its specification.

This file gives a shallow embedding of the cidsem core (entity identifiers,
key composition, the content-hash cache, the indexing client with batching
and retry, the string-id debug cache, and the numeric range plugin) and
proves or refutes the frozen claims about it.

Machine integers are modelled as `Nat` with explicit bounds (`< 2 ^ 64` for
lanes, `< 2 ^ 256` for entity values); Python's arbitrary-precision ints on
the bit operations used here coincide with `Nat` bit operations on
non-negative values.  Fallible Python code (raises) is modelled with
`Except`/`Option`; an exception caught and converted to a return value is
modelled by the corresponding total function.
-/

namespace Cidsem

/-! ### Entity identifier E (keys.py)

An `E` is a 256-bit unsigned value.  `keys.py` represents it as a subclass
of `int`; the lane accessors `high`, `high_mid`, `low_mid`, `low` extract the
four 64-bit big-endian lanes via shift and mask, and construction from a
4-tuple packs the lanes with shifts and bitwise or, then asserts the value
is in `[0, 2 ^ 256)` (`E.from_int`).  We model the value as a `Nat` and the
assertion as `Except`. -/

/-- Lane accessor `E.high`: `(self >> 192) & ((1 << 64) - 1)`. -/
def ehigh (v : Nat) : Nat := (v >>> 192) &&& (2 ^ 64 - 1)

/-- Lane accessor `E.high_mid`: `(self >> 128) & ((1 << 64) - 1)`. -/
def ehighMid (v : Nat) : Nat := (v >>> 128) &&& (2 ^ 64 - 1)

/-- Lane accessor `E.low_mid`: `(self >> 64) & ((1 << 64) - 1)`. -/
def elowMid (v : Nat) : Nat := (v >>> 64) &&& (2 ^ 64 - 1)

/-- Lane accessor `E.low`: `self & ((1 << 64) - 1)`. -/
def elow (v : Nat) : Nat := v &&& (2 ^ 64 - 1)

/-- Packing of a 4-lane tuple into an integer value, as in `E.__new__` for
list/tuple input: `(a << 192) | (b << 128) | (c << 64) | d`. -/
def efromLanes (a b c d : Nat) : Nat :=
  (a <<< 192) ||| (b <<< 128) ||| (c <<< 64) ||| d

/-- Model of `E.from_int`: asserts `0 <= id_ < (1 << 256)` ("ID must be a
256-bit integer") and otherwise returns the value unchanged. -/
def efromInt (v : Nat) : Except String Nat :=
  if v < 2 ^ 256 then .ok v else .error "ID must be a 256-bit integer"

/-! Arithmetic characterisation of the lane operations. -/

theorem ehigh_eq (v : Nat) : ehigh v = v / 2 ^ 192 % 2 ^ 64 := by
  unfold ehigh
  rw [Nat.shiftRight_eq_div_pow, Nat.and_pow_two_sub_one_eq_mod]

theorem ehighMid_eq (v : Nat) : ehighMid v = v / 2 ^ 128 % 2 ^ 64 := by
  unfold ehighMid
  rw [Nat.shiftRight_eq_div_pow, Nat.and_pow_two_sub_one_eq_mod]

theorem elowMid_eq (v : Nat) : elowMid v = v / 2 ^ 64 % 2 ^ 64 := by
  unfold elowMid
  rw [Nat.shiftRight_eq_div_pow, Nat.and_pow_two_sub_one_eq_mod]

theorem elow_eq (v : Nat) : elow v = v % 2 ^ 64 := by
  unfold elow
  rw [Nat.and_pow_two_sub_one_eq_mod]

theorem shiftLeft_or_eq (k c d : Nat) (hd : d < 2 ^ k) :
    (c <<< k) ||| d = c * 2 ^ k + d := by
  rw [Nat.shiftLeft_eq, Nat.mul_comm, ← Nat.mul_add_lt_is_or hd, Nat.mul_comm]

theorem efromLanes_eq (a b c d : Nat) (hb : b < 2 ^ 64) (hc : c < 2 ^ 64)
    (hd : d < 2 ^ 64) :
    efromLanes a b c d = a * 2 ^ 192 + b * 2 ^ 128 + c * 2 ^ 64 + d := by
  unfold efromLanes
  rw [Nat.lor_assoc, Nat.lor_assoc]
  rw [shiftLeft_or_eq 64 c d hd]
  rw [shiftLeft_or_eq 128 b _ (by omega)]
  rw [shiftLeft_or_eq 192 a _ (by omega)]
  omega

theorem efromLanes_lt (a b c d : Nat) (ha : a < 2 ^ 64) (hb : b < 2 ^ 64)
    (hc : c < 2 ^ 64) (hd : d < 2 ^ 64) : efromLanes a b c d < 2 ^ 256 := by
  rw [efromLanes_eq a b c d hb hc hd]
  omega

theorem ehigh_lt (v : Nat) : ehigh v < 2 ^ 64 := by
  rw [ehigh_eq]; exact Nat.mod_lt _ (by norm_num)

theorem ehighMid_lt (v : Nat) : ehighMid v < 2 ^ 64 := by
  rw [ehighMid_eq]; exact Nat.mod_lt _ (by norm_num)

theorem elowMid_lt (v : Nat) : elowMid v < 2 ^ 64 := by
  rw [elowMid_eq]; exact Nat.mod_lt _ (by norm_num)

theorem elow_lt (v : Nat) : elow v < 2 ^ 64 := by
  rw [elow_eq]; exact Nat.mod_lt _ (by norm_num)

/-- Recomposition: packing the four lanes of a 256-bit value gives the value
back. -/
theorem efromLanes_of_lanes (v : Nat) (hv : v < 2 ^ 256) :
    efromLanes (ehigh v) (ehighMid v) (elowMid v) (elow v) = v := by
  rw [efromLanes_eq _ _ _ _ (ehighMid_lt v) (elowMid_lt v) (elow_lt v)]
  rw [ehigh_eq, ehighMid_eq, elowMid_eq, elow_eq]
  omega

/-- Decomposition: the lanes of a packed 4-lane tuple are the original lane
values, for lane-bounded inputs. -/
theorem lanes_of_efromLanes (a b c d : Nat) (ha : a < 2 ^ 64) (hb : b < 2 ^ 64)
    (hc : c < 2 ^ 64) (hd : d < 2 ^ 64) :
    ehigh (efromLanes a b c d) = a ∧ ehighMid (efromLanes a b c d) = b ∧
    elowMid (efromLanes a b c d) = c ∧ elow (efromLanes a b c d) = d := by
  rw [efromLanes_eq a b c d hb hc hd, ehigh_eq, ehighMid_eq, elowMid_eq, elow_eq]
  refine ⟨?_, ?_, ?_, ?_⟩ <;> omega

/-- Injectivity of 4-lane packing on lane-bounded inputs. -/
theorem efromLanes_inj (a b c d a2 b2 c2 d2 : Nat) (ha : a < 2 ^ 64)
    (hb : b < 2 ^ 64) (hc : c < 2 ^ 64) (hd : d < 2 ^ 64) (ha2 : a2 < 2 ^ 64)
    (hb2 : b2 < 2 ^ 64) (hc2 : c2 < 2 ^ 64) (hd2 : d2 < 2 ^ 64)
    (heq : efromLanes a b c d = efromLanes a2 b2 c2 d2) :
    a = a2 ∧ b = b2 ∧ c = c2 ∧ d = d2 := by
  rw [efromLanes_eq a b c d hb hc hd, efromLanes_eq a2 b2 c2 d2 hb2 hc2 hd2] at heq
  refine ⟨?_, ?_, ?_, ?_⟩ <;> omega

/-! ### Key composer (cidstore.py)

`create_compound_key(subject, predicate)` and `create_reverse_key(predicate,
obj)` XOR each 64-bit lane of the two operands and build an `E` from the
resulting 4-tuple (through `E.__new__`, whose `from_int` range assertion
always succeeds here because each XORed lane is below `2 ^ 64`). -/

/-- Model of `create_compound_key(subject, predicate)`. -/
def create_compound_key (s p : Nat) : Nat :=
  efromLanes (ehigh s ^^^ ehigh p) (ehighMid s ^^^ ehighMid p)
    (elowMid s ^^^ elowMid p) (elow s ^^^ elow p)

/-- Model of `create_reverse_key(predicate, obj)`. -/
def create_reverse_key (p o : Nat) : Nat :=
  efromLanes (ehigh o ^^^ ehigh p) (ehighMid o ^^^ ehighMid p)
    (elowMid o ^^^ elowMid p) (elow o ^^^ elow p)

theorem create_compound_key_lt (s p : Nat) : create_compound_key s p < 2 ^ 256 :=
  efromLanes_lt _ _ _ _
    (Nat.xor_lt_two_pow (ehigh_lt s) (ehigh_lt p))
    (Nat.xor_lt_two_pow (ehighMid_lt s) (ehighMid_lt p))
    (Nat.xor_lt_two_pow (elowMid_lt s) (elowMid_lt p))
    (Nat.xor_lt_two_pow (elow_lt s) (elow_lt p))

theorem lanes_of_compound_key (s p : Nat) :
    ehigh (create_compound_key s p) = ehigh s ^^^ ehigh p ∧
    ehighMid (create_compound_key s p) = ehighMid s ^^^ ehighMid p ∧
    elowMid (create_compound_key s p) = elowMid s ^^^ elowMid p ∧
    elow (create_compound_key s p) = elow s ^^^ elow p :=
  lanes_of_efromLanes _ _ _ _
    (Nat.xor_lt_two_pow (ehigh_lt s) (ehigh_lt p))
    (Nat.xor_lt_two_pow (ehighMid_lt s) (ehighMid_lt p))
    (Nat.xor_lt_two_pow (elowMid_lt s) (elowMid_lt p))
    (Nat.xor_lt_two_pow (elow_lt s) (elow_lt p))

/-- C7: compoundKey(a, b) is the E each of whose four 64-bit lanes is the XOR
of the corresponding lanes of a and b; reverseKey(p, o) computes that same
lanewise XOR of its two operands (it equals compoundKey applied to (o, p));
both are pure functions of their arguments, and for a fixed subject s the map
p -> compoundKey(s, p) is injective on 256-bit entities. -/
theorem claim_c7_compound_reverse_keys (a b s p1 p2 : Nat) (hp1 : p1 < 2 ^ 256)
    (hp2 : p2 < 2 ^ 256) :
    (ehigh (create_compound_key a b) = ehigh a ^^^ ehigh b ∧
     ehighMid (create_compound_key a b) = ehighMid a ^^^ ehighMid b ∧
     elowMid (create_compound_key a b) = elowMid a ^^^ elowMid b ∧
     elow (create_compound_key a b) = elow a ^^^ elow b) ∧
    create_reverse_key a b = create_compound_key b a ∧
    (create_compound_key s p1 = create_compound_key s p2 → p1 = p2) := by
  refine ⟨lanes_of_compound_key a b, rfl, fun heq => ?_⟩
  unfold create_compound_key at heq
  obtain ⟨e1, e2, e3, e4⟩ := efromLanes_inj _ _ _ _ _ _ _ _
    (Nat.xor_lt_two_pow (ehigh_lt s) (ehigh_lt p1))
    (Nat.xor_lt_two_pow (ehighMid_lt s) (ehighMid_lt p1))
    (Nat.xor_lt_two_pow (elowMid_lt s) (elowMid_lt p1))
    (Nat.xor_lt_two_pow (elow_lt s) (elow_lt p1))
    (Nat.xor_lt_two_pow (ehigh_lt s) (ehigh_lt p2))
    (Nat.xor_lt_two_pow (ehighMid_lt s) (ehighMid_lt p2))
    (Nat.xor_lt_two_pow (elowMid_lt s) (elowMid_lt p2))
    (Nat.xor_lt_two_pow (elow_lt s) (elow_lt p2)) heq
  have l1 : ehigh p1 = ehigh p2 := Nat.xor_right_inj.mp e1
  have l2 : ehighMid p1 = ehighMid p2 := Nat.xor_right_inj.mp e2
  have l3 : elowMid p1 = elowMid p2 := Nat.xor_right_inj.mp e3
  have l4 : elow p1 = elow p2 := Nat.xor_right_inj.mp e4
  rw [← efromLanes_of_lanes p1 hp1, ← efromLanes_of_lanes p2 hp2, l1, l2, l3, l4]

/-- Witness for C7 at a = 3, b = 10, s = 7, p1 = 1, p2 = 1. -/
theorem claim_c7_compound_reverse_keys_witness :
    (ehigh (create_compound_key 3 10) = ehigh 3 ^^^ ehigh 10 ∧
     ehighMid (create_compound_key 3 10) = ehighMid 3 ^^^ ehighMid 10 ∧
     elowMid (create_compound_key 3 10) = elowMid 3 ^^^ elowMid 10 ∧
     elow (create_compound_key 3 10) = elow 3 ^^^ elow 10) ∧
    create_reverse_key 3 10 = create_compound_key 10 3 ∧
    (create_compound_key 7 1 = create_compound_key 7 1 → (1 : Nat) = 1) :=
  claim_c7_compound_reverse_keys 3 10 7 1 1 (by norm_num) (by norm_num)

/-- C8: For every integer v with 0 <= v < 2^256, constructing an E from the
four 64-bit lanes of v (high, high_mid, low_mid, low in big-endian
significance order) yields an E whose integer value equals v (the `from_int`
range assertion succeeding), and the lanes of an E built from four lane
values equal those values: lane decomposition and recomposition are mutually
inverse on the 256-bit range. -/
theorem claim_c8_lane_roundtrip (v h hm lm l : Nat) (hv : v < 2 ^ 256)
    (hh : h < 2 ^ 64) (hhm : hm < 2 ^ 64) (hlm : lm < 2 ^ 64) (hl : l < 2 ^ 64) :
    efromInt (efromLanes (ehigh v) (ehighMid v) (elowMid v) (elow v)) = .ok v ∧
    ehigh (efromLanes h hm lm l) = h ∧ ehighMid (efromLanes h hm lm l) = hm ∧
    elowMid (efromLanes h hm lm l) = lm ∧ elow (efromLanes h hm lm l) = l := by
  refine ⟨?_, lanes_of_efromLanes h hm lm l hh hhm hlm hl⟩
  rw [efromLanes_of_lanes v hv]
  unfold efromInt
  rw [if_pos hv]

/-- Witness for C8 at v = 5 and lanes (1, 2, 3, 4). -/
theorem claim_c8_lane_roundtrip_witness :
    efromInt (efromLanes (ehigh 5) (ehighMid 5) (elowMid 5) (elow 5)) = .ok 5 ∧
    ehigh (efromLanes 1 2 3 4) = 1 ∧ ehighMid (efromLanes 1 2 3 4) = 2 ∧
    elowMid (efromLanes 1 2 3 4) = 3 ∧ elow (efromLanes 1 2 3 4) = 4 :=
  claim_c8_lane_roundtrip 5 1 2 3 4 (by norm_num) (by norm_num) (by norm_num)
    (by norm_num) (by norm_num)

/-! ### Indexing client: single-triple insertion (cidstore.py)

`CidstoreClient.insert_triple` executes, inside one `try` block, four
sequential `self.cidstore.insert(key, value)` calls and returns `True`; the
`except` handler prints a diagnostic and returns `False`.  We model the
backing store's `insert` as a function `Nat -> Nat -> Except String Unit`
(an arbitrary success/failure behaviour per key/value pair) and record both
the returned Boolean and the list of writes actually attempted, in order.
Because a raised exception aborts the `try` block, writes after the first
failing one are never attempted. -/

/-- Entities of a triple; `TripleRecord` also carries provenance, a schema
version and a timestamp, none of which the four writes read. -/
structure Triple where
  subject : Nat
  predicate : Nat
  object : Nat
deriving DecidableEq, Repr

/-- The four key/value writes of `insert_triple`, in program order. -/
def triple_writes (t : Triple) : List (Nat × Nat) :=
  [(create_compound_key t.subject t.predicate, t.object),
   (t.subject, t.predicate),
   (t.predicate, t.object),
   (create_reverse_key t.predicate t.object, t.subject)]

/-- Sequential execution of a list of store writes inside one `try` block:
returns the Boolean result and the writes attempted.  The first raising
write makes the whole call return `false`; later writes are not attempted. -/
def attemptWrites (ins : Nat → Nat → Except String Unit) :
    List (Nat × Nat) → Bool × List (Nat × Nat)
  | [] => (true, [])
  | w :: ws =>
    match ins w.1 w.2 with
    | .ok _ => ((attemptWrites ins ws).1, w :: (attemptWrites ins ws).2)
    | .error _ => (false, [w])

/-- Model of `CidstoreClient.insert_triple`.  The exception handler converts
any failure into `false` (total function, nothing re-raised). -/
def insert_triple (ins : Nat → Nat → Except String Unit) (t : Triple) :
    Bool × List (Nat × Nat) :=
  attemptWrites ins (triple_writes t)

theorem attemptWrites_all_ok (ins : Nat → Nat → Except String Unit)
    (ws : List (Nat × Nat)) (h : ∀ w ∈ ws, ins w.1 w.2 = .ok ()) :
    attemptWrites ins ws = (true, ws) := by
  induction ws with
  | nil => rfl
  | cons w ws ih =>
    have hw : ins w.1 w.2 = .ok () := h w (List.mem_cons_self w ws)
    have hrest := ih (fun u hu => h u (List.mem_cons_of_mem w hu))
    simp [attemptWrites, hw, hrest]

theorem attemptWrites_first_fail (ins : Nat → Nat → Except String Unit)
    (ws : List (Nat × Nat)) (h : ¬ ∀ w ∈ ws, ins w.1 w.2 = .ok ()) :
    ∃ pre w e suf, ws = pre ++ w :: suf ∧
      (∀ u ∈ pre, ins u.1 u.2 = .ok ()) ∧ ins w.1 w.2 = .error e ∧
      attemptWrites ins ws = (false, pre ++ [w]) := by
  induction ws with
  | nil => exact absurd (by simp) h
  | cons w ws ih =>
    cases hw : ins w.1 w.2 with
    | error e =>
      exact ⟨[], w, e, ws, by simp, by simp, hw, by simp [attemptWrites, hw]⟩
    | ok u =>
      cases u
      have hrest : ¬ ∀ v ∈ ws, ins v.1 v.2 = .ok () := by
        intro hall
        exact h (fun v hv => by
          rcases List.mem_cons.mp hv with hv | hv
          · rw [hv]; exact hw
          · exact hall v hv)
      obtain ⟨pre, v, e, suf, hsplit, hpre, hv, hrun⟩ := ih hrest
      refine ⟨w :: pre, v, e, suf, by simp [hsplit], ?_, hv, ?_⟩
      · intro u hu
        rcases List.mem_cons.mp hu with hu | hu
        · rw [hu]; exact hw
        · exact hpre u hu
      · simp [attemptWrites, hw, hrun]

/-- Counterexample to C1 as stated: against a store whose `insert` always
raises, `insert_triple` on the triple (1, 2, 3) returns `false` after
attempting only ONE write (the first, compound-key one), not all four; the
remaining three writes are never issued because the exception aborts the
`try` block. -/
theorem claim_c1_counterexample :
    (insert_triple (fun _ _ => .error "store down") ⟨1, 2, 3⟩).1 = false ∧
    (insert_triple (fun _ _ => .error "store down") ⟨1, 2, 3⟩).2 =
      [(create_compound_key 1 2, 3)] ∧
    ¬ (insert_triple (fun _ _ => .error "store down") ⟨1, 2, 3⟩).2.length = 4 := by
  refine ⟨rfl, rfl, by decide⟩

/-- C1 amended: insertTriple issues the four writes
(compound(subject,predicate)->object, subject->predicate, predicate->object,
reverse(predicate,object)->subject) sequentially, stopping at the first
failing write rather than attempting all four; when every write succeeds it
returns true having attempted exactly those four writes in that order; when
some write fails it returns false (the failure is converted to a Boolean,
never re-raised) and the attempted writes are exactly the prefix of the four
up to and including the first failing one. -/
theorem claim_c1_insert_triple_amended (ins : Nat → Nat → Except String Unit)
    (t : Triple) :
    ((∀ w ∈ triple_writes t, ins w.1 w.2 = .ok ()) →
      insert_triple ins t =
        (true, [(create_compound_key t.subject t.predicate, t.object),
                (t.subject, t.predicate),
                (t.predicate, t.object),
                (create_reverse_key t.predicate t.object, t.subject)])) ∧
    ((insert_triple ins t).1 = true ↔ ∀ w ∈ triple_writes t, ins w.1 w.2 = .ok ()) ∧
    ((¬ ∀ w ∈ triple_writes t, ins w.1 w.2 = .ok ()) →
      ∃ pre w e suf, triple_writes t = pre ++ w :: suf ∧
        (∀ u ∈ pre, ins u.1 u.2 = .ok ()) ∧ ins w.1 w.2 = .error e ∧
        insert_triple ins t = (false, pre ++ [w])) := by
  refine ⟨fun h => attemptWrites_all_ok ins _ h, ?_, fun h => attemptWrites_first_fail ins _ h⟩
  constructor
  · intro htrue
    by_contra hnot
    obtain ⟨pre, w, e, suf, _, _, _, hrun⟩ := attemptWrites_first_fail ins _ hnot
    rw [insert_triple, hrun] at htrue
    simp at htrue
  · intro hall
    rw [insert_triple, attemptWrites_all_ok ins _ hall]

/-- Witness for C1 amended: an always-succeeding store at the triple
(1, 2, 3) issues exactly the four writes and returns true. -/
theorem claim_c1_insert_triple_amended_witness :
    insert_triple (fun _ _ => .ok ()) ⟨1, 2, 3⟩ =
      (true, [(create_compound_key 1 2, 3), (1, 2), (2, 3),
              (create_reverse_key 2 3, 1)]) :=
  (claim_c1_insert_triple_amended (fun _ _ => .ok ()) ⟨1, 2, 3⟩).1
    (fun w _ => rfl)

/-! ### Indexing client: batch insertion (cidstore.py)

`CidstoreClient.batch_insert_triples` expands each triple into the same four
key/value pairs as `insert_triple`, concatenated in triple order, then walks
the item list in slices `batch_items[i : i + self.batch_size]` for
`i = 0, batch_size, 2 * batch_size, ...` (`self.batch_size` is set to 128 in
`__init__` and never reassigned).  Each slice goes to
`self.cidstore.batch_insert` in its own `try`: an exception appends
`{"batch_start": i, "error": str(e)}` to the failure list, success adds
`len(batch) // 4` to the success count.  The store's `batch_insert` is
modelled as a function of the batch offset and the batch itself, so that an
arbitrary (even call-sequence-dependent) subset of the sequential
submissions may fail. -/

/-- One recorded failure dict.  `batch_insert_triples` records
`{"batch_start": i, "error": str(e)}`; the all-retries-failed record of
`robust_batch_insert_with_retry` carries only an `"error"` key, so
`batch_start` is optional. -/
structure BatchFailure where
  batch_start : Option Nat
  error : String
deriving DecidableEq, Repr

/-- The status dict `{"success_count": ..., "failures": [...]}`. -/
structure BatchResult where
  success_count : Nat
  failures : List BatchFailure
deriving DecidableEq, Repr

/-- The slices `items[i : i + 128]` visited by the insertion loop, each
paired with its starting offset `i`. -/
def chunks128 {α : Type} : Nat → List α → List (Nat × List α)
  | _, [] => []
  | i, a :: rest =>
    (i, (a :: rest).take 128) :: chunks128 (i + 128) ((a :: rest).drop 128)
termination_by _ items => items.length
decreasing_by simp [List.length_drop]; omega

/-- Loop body of `batch_insert_triples`: one `try`-wrapped
`cidstore.batch_insert(batch)` call. -/
def batchStep (store : Nat → List (Nat × Nat) → Except String Unit)
    (acc : BatchResult) (c : Nat × List (Nat × Nat)) : BatchResult :=
  match store c.1 c.2 with
  | .ok _ => { acc with success_count := acc.success_count + c.2.length / 4 }
  | .error e => { acc with failures := acc.failures ++ [⟨some c.1, e⟩] }

/-- Model of `CidstoreClient.batch_insert_triples` (with the default
`batch_size = 128`). -/
def batch_insert_triples (store : Nat → List (Nat × Nat) → Except String Unit)
    (ts : List Triple) : BatchResult :=
  (chunks128 0 (ts.flatMap triple_writes)).foldl (batchStep store) ⟨0, []⟩

/-- Discriminator for a successful store call. -/
def exceptOk {ε α : Type} : Except ε α → Bool
  | .ok _ => true
  | .error _ => false

theorem flatMap_triple_writes_length (ts : List Triple) :
    (ts.flatMap triple_writes).length = 4 * ts.length := by
  induction ts with
  | nil => rfl
  | cons t ts ih =>
    rw [List.flatMap_cons, List.length_append, ih]
    simp [triple_writes]
    omega

theorem chunks128_flatten {α : Type} (i : Nat) (items : List α) :
    ((chunks128 i items).map Prod.snd).flatten = items := by
  induction i, items using chunks128.induct with
  | case1 i => simp only [chunks128]; rfl
  | case2 i a rest ih =>
    simp only [chunks128, List.map_cons, List.flatten_cons, ih]
    exact List.take_append_drop 128 (a :: rest)

theorem chunks128_mem {α : Type} (i : Nat) (items : List α)
    (c : Nat × List α) (hc : c ∈ chunks128 i items) :
    c.2.length ≤ 128 ∧ i ≤ c.1 ∧ c.2 = (items.drop (c.1 - i)).take 128 := by
  induction i, items using chunks128.induct with
  | case1 i =>
    simp only [chunks128] at hc
    exact absurd hc (List.not_mem_nil c)
  | case2 i a rest ih =>
    simp only [chunks128] at hc
    rcases List.mem_cons.mp hc with hc | hc
    · subst hc
      refine ⟨List.length_take_le _ _, le_refl _, ?_⟩
      rw [Nat.sub_self, List.drop_zero]
    · obtain ⟨hlen, hge, hshape⟩ := ih hc
      refine ⟨hlen, by omega, ?_⟩
      rw [hshape, List.drop_drop]
      have harith : 128 + (c.1 - (i + 128)) = c.1 - i := by omega
      rw [harith]

theorem chunks128_dvd {α : Type} (i : Nat) (items : List α)
    (h : 4 ∣ items.length) :
    ∀ c ∈ chunks128 i items, 4 ∣ c.2.length := by
  induction i, items using chunks128.induct with
  | case1 i =>
    intro c hc
    simp only [chunks128] at hc
    exact absurd hc (List.not_mem_nil c)
  | case2 i a rest ih =>
    intro c hc
    simp only [chunks128] at hc
    rcases List.mem_cons.mp hc with hc | hc
    · subst hc
      simp only [List.length_take]
      rcases Nat.le_total 128 (a :: rest).length with hle | hle
      · rw [min_eq_left hle]; decide
      · rw [min_eq_right hle]; exact h
    · refine ih ?_ c hc
      obtain ⟨k, hk⟩ := h
      refine ⟨k - 32, ?_⟩
      simp only [List.length_drop]
      omega

theorem batchStep_ok (store : Nat → List (Nat × Nat) → Except String Unit)
    (acc : BatchResult) (c : Nat × List (Nat × Nat))
    (h : store c.1 c.2 = .ok ()) :
    batchStep store acc c
      = { acc with success_count := acc.success_count + c.2.length / 4 } := by
  unfold batchStep
  rw [h]

theorem batchStep_err (store : Nat → List (Nat × Nat) → Except String Unit)
    (acc : BatchResult) (c : Nat × List (Nat × Nat)) (e : String)
    (h : store c.1 c.2 = .error e) :
    batchStep store acc c
      = { acc with failures := acc.failures ++ [⟨some c.1, e⟩] } := by
  unfold batchStep
  rw [h]

theorem batchFold_spec (store : Nat → List (Nat × Nat) → Except String Unit)
    (cs : List (Nat × List (Nat × Nat))) (acc : BatchResult) :
    (cs.foldl (batchStep store) acc).success_count
      = acc.success_count
        + (cs.map (fun c => if exceptOk (store c.1 c.2) then c.2.length / 4 else 0)).sum ∧
    (cs.foldl (batchStep store) acc).failures
      = acc.failures ++ cs.filterMap (fun c =>
          match store c.1 c.2 with
          | .ok _ => none
          | .error e => some ⟨some c.1, e⟩) := by
  induction cs generalizing acc with
  | nil => simp
  | cons c cs ih =>
    rcases hs : store c.1 c.2 with e | u
    · rw [List.foldl_cons, batchStep_err store acc c e hs]
      obtain ⟨ih1, ih2⟩ := ih { acc with failures := acc.failures ++ [⟨some c.1, e⟩] }
      constructor
      · rw [ih1]
        simp [hs, exceptOk]
      · rw [ih2]
        simp [hs]
    · cases u
      rw [List.foldl_cons, batchStep_ok store acc c hs]
      obtain ⟨ih1, ih2⟩ := ih { acc with success_count := acc.success_count + c.2.length / 4 }
      constructor
      · rw [ih1]
        simp only [List.map_cons, List.sum_cons, hs, exceptOk, if_pos]
        omega
      · rw [ih2]
        simp [hs]

theorem chunks128_length_sum {α : Type} (i : Nat) (items : List α) :
    ((chunks128 i items).map (fun c => c.2.length)).sum = items.length := by
  conv_rhs => rw [← chunks128_flatten i items]
  rw [List.length_flatten, List.map_map]
  rfl

theorem sum_map_filter_eq (p : Nat × List (Nat × Nat) → Bool)
    (f : Nat × List (Nat × Nat) → Nat) (l : List (Nat × List (Nat × Nat))) :
    ((l.filter p).map f).sum = (l.map (fun a => if p a then f a else 0)).sum := by
  induction l with
  | nil => rfl
  | cons a l ih =>
    by_cases hp : p a <;> simp [List.filter_cons, hp, ih]

theorem four_mul_sum_div (p : Nat × List (Nat × Nat) → Bool)
    (cs : List (Nat × List (Nat × Nat)))
    (h : ∀ c ∈ cs, 4 ∣ c.2.length) :
    4 * (cs.map (fun c => if p c then c.2.length / 4 else 0)).sum
      = (cs.map (fun c => if p c then c.2.length else 0)).sum := by
  induction cs with
  | nil => rfl
  | cons c cs ih =>
    obtain ⟨k, hk⟩ := h c (List.mem_cons_self c cs)
    have hrest := ih (fun u hu => h u (List.mem_cons_of_mem c hu))
    by_cases hp : p c
    · simp only [List.map_cons, List.sum_cons, if_pos hp]
      omega
    · simp only [List.map_cons, List.sum_cons, if_neg hp]
      omega

/-- The failure list of a batch insertion is exactly the per-failed-slice
records, in submission order. -/
theorem batch_failures_eq (store : Nat → List (Nat × Nat) → Except String Unit)
    (ts : List Triple) :
    (batch_insert_triples store ts).failures
      = (chunks128 0 (ts.flatMap triple_writes)).filterMap (fun c =>
          match store c.1 c.2 with
          | .ok _ => none
          | .error e => some ⟨some c.1, e⟩) := by
  rw [batch_insert_triples,
    (batchFold_spec store (chunks128 0 (ts.flatMap triple_writes)) ⟨0, []⟩).2]
  rfl

/-- The success count of a batch insertion, as the per-slice sum. -/
theorem batch_success_count_eq (store : Nat → List (Nat × Nat) → Except String Unit)
    (ts : List Triple) :
    (batch_insert_triples store ts).success_count
      = ((chunks128 0 (ts.flatMap triple_writes)).map
          (fun c => if exceptOk (store c.1 c.2) then c.2.length / 4 else 0)).sum := by
  rw [batch_insert_triples,
    (batchFold_spec store (chunks128 0 (ts.flatMap triple_writes)) ⟨0, []⟩).1]
  show 0 + _ = _
  rw [Nat.zero_add]

/-- Four times the success count is the number of items in the succeeding
slices. -/
theorem batch_success_mul4 (store : Nat → List (Nat × Nat) → Except String Unit)
    (ts : List Triple) :
    4 * (batch_insert_triples store ts).success_count
      = (((chunks128 0 (ts.flatMap triple_writes)).filter
          (fun c => exceptOk (store c.1 c.2))).map (fun c => c.2.length)).sum := by
  have hdvd : 4 ∣ (ts.flatMap triple_writes).length :=
    ⟨ts.length, flatMap_triple_writes_length ts⟩
  rw [batch_success_count_eq,
    four_mul_sum_div (fun c => exceptOk (store c.1 c.2)) _ (chunks128_dvd 0 _ hdvd),
    sum_map_filter_eq]

/-- A store whose batch primitive never fails yields success_count = N and no
failures. -/
theorem batch_all_ok (store : Nat → List (Nat × Nat) → Except String Unit)
    (ts : List Triple)
    (hok : ∀ c ∈ chunks128 0 (ts.flatMap triple_writes), store c.1 c.2 = .ok ()) :
    batch_insert_triples store ts = ⟨ts.length, []⟩ := by
  have hlen := flatMap_triple_writes_length ts
  have hall : ∀ c ∈ chunks128 0 (ts.flatMap triple_writes),
      exceptOk (store c.1 c.2) = true := by
    intro c hc; rw [hok c hc]; rfl
  have hfilter : (chunks128 0 (ts.flatMap triple_writes)).filter
      (fun c => exceptOk (store c.1 c.2)) = chunks128 0 (ts.flatMap triple_writes) :=
    List.filter_eq_self.mpr hall
  have hsc : 4 * (batch_insert_triples store ts).success_count = 4 * ts.length := by
    rw [batch_success_mul4, hfilter, chunks128_length_sum, hlen]
  have hfail : (batch_insert_triples store ts).failures = [] := by
    rw [batch_failures_eq]
    apply List.filterMap_eq_nil_iff.mpr
    intro c hc
    rw [hok c hc]
  rcases hres : batch_insert_triples store ts with ⟨sc, fl⟩
  rw [hres] at hsc hfail
  simp only at hsc hfail
  subst hfail
  have hn : sc = ts.length := by omega
  rw [hn]

/-- A store failing every slice yields success_count = 0, and (when at least
one slice exists, i.e. ts is nonempty) a nonempty failure list. -/
theorem batch_all_fail (store : Nat → List (Nat × Nat) → Except String Unit)
    (ts : List Triple)
    (hbad : ∀ c ∈ chunks128 0 (ts.flatMap triple_writes),
      ∃ e, store c.1 c.2 = .error e) :
    (batch_insert_triples store ts).success_count = 0 ∧
    (ts ≠ [] → (batch_insert_triples store ts).failures ≠ []) := by
  constructor
  · have hfilter : (chunks128 0 (ts.flatMap triple_writes)).filter
        (fun c => exceptOk (store c.1 c.2)) = [] := by
      apply List.filter_eq_nil_iff.mpr
      intro c hc
      obtain ⟨e, he⟩ := hbad c hc
      rw [he]
      simp [exceptOk]
    have h4 := batch_success_mul4 store ts
    rw [hfilter] at h4
    simp at h4
    exact h4
  · intro hts hnil
    rw [batch_failures_eq] at hnil
    rcases hchunks : chunks128 0 (ts.flatMap triple_writes) with _ | ⟨c, rest⟩
    · rcases hts2 : ts with _ | ⟨t, ts2⟩
      · exact hts hts2
      · rw [hts2] at hchunks
        rw [List.flatMap_cons] at hchunks
        simp only [triple_writes, List.cons_append, chunks128] at hchunks
        exact (List.cons_ne_nil _ _) hchunks
    · have hcmem : c ∈ chunks128 0 (ts.flatMap triple_writes) := by
        rw [hchunks]; exact List.mem_cons_self c rest
      obtain ⟨e, he⟩ := hbad c hcmem
      rw [hchunks, List.filterMap_cons, he] at hnil
      exact (List.cons_ne_nil _ _) hnil

/-- C2: batchInsertTriples expands N triples into exactly 4N key/value items
(the four per-triple writes, in triple order), partitions those into the
consecutive slices of at most 128 items starting at offsets 0, 128, ...,
and submits every slice to the store even when earlier slices fail; the
failures list holds exactly one {batch_start, error} record per failed
slice (in submission order, carrying the slice offset), four times the
success count equals the total number of items in the succeeding slices
(each slice holding a multiple of four items), and against a store that
never fails the result is success_count = N with an empty failures list. -/
theorem claim_c2_batch_insert_triples
    (store : Nat → List (Nat × Nat) → Except String Unit) (ts : List Triple) :
    (ts.flatMap triple_writes).length = 4 * ts.length ∧
    ((chunks128 0 (ts.flatMap triple_writes)).map Prod.snd).flatten
      = ts.flatMap triple_writes ∧
    (∀ c ∈ chunks128 0 (ts.flatMap triple_writes),
      c.2.length ≤ 128 ∧ c.2 = ((ts.flatMap triple_writes).drop c.1).take 128) ∧
    (batch_insert_triples store ts).failures
      = (chunks128 0 (ts.flatMap triple_writes)).filterMap (fun c =>
          match store c.1 c.2 with
          | .ok _ => none
          | .error e => some ⟨some c.1, e⟩) ∧
    4 * (batch_insert_triples store ts).success_count
      = (((chunks128 0 (ts.flatMap triple_writes)).filter
          (fun c => exceptOk (store c.1 c.2))).map (fun c => c.2.length)).sum ∧
    ((∀ c ∈ chunks128 0 (ts.flatMap triple_writes), store c.1 c.2 = .ok ()) →
      batch_insert_triples store ts = ⟨ts.length, []⟩) := by
  refine ⟨flatMap_triple_writes_length ts, chunks128_flatten 0 _, ?_,
    batch_failures_eq store ts, batch_success_mul4 store ts, batch_all_ok store ts⟩
  intro c hc
  obtain ⟨h1, _, h3⟩ := chunks128_mem 0 _ c hc
  exact ⟨h1, by simpa using h3⟩

/-- Witness for C2: two triples against an always-succeeding store give
success_count = 2 and no failures. -/
theorem claim_c2_batch_insert_triples_witness :
    batch_insert_triples (fun _ _ => .ok ()) [⟨1, 2, 3⟩, ⟨4, 5, 6⟩] = ⟨2, []⟩ :=
  (claim_c2_batch_insert_triples (fun _ _ => .ok ()) [⟨1, 2, 3⟩, ⟨4, 5, 6⟩]).2.2.2.2.2
    (fun c _ => rfl)

/-! ### Indexing client: retry wrapper (cidstore.py)

`robust_batch_insert_with_retry(client, triples, config)` loops
`while attempt < config.retry_max_attempts`, each iteration calling
`client.batch_insert_triples(triples)` on the WHOLE triple list inside a
`try`.  An empty failure list returns the result; reported failures retry
(after a backoff sleep, not modelled: time does not affect the result)
unless this was the last attempt, in which case the last attempt's result is
returned; a thrown error retries likewise, and on the last attempt breaks
out to return `{"success_count": 0, "failures": [{"error": "All retries
failed: ..."}]}` carrying the last error.  The store behaviour may differ
per attempt, so the model indexes it by the attempt number; the second
component of the result counts the attempts actually made. -/

/-- The all-retries-failed record (its failure dict has no batch_start). -/
def allRetriesFailed (lastError : Option String) : BatchResult :=
  ⟨0, [⟨none, "All retries failed: "
        ++ (match lastError with | some e => e | none => "None")⟩]⟩

/-- The retry loop, from loop counter `attempt` on. -/
def robustRetryAux (attemptF : Nat → Except String BatchResult)
    (maxAttempts attempt : Nat) (lastError : Option String) : BatchResult × Nat :=
  if _h : attempt < maxAttempts then
    match attemptF attempt with
    | .ok result =>
      if result.failures = [] then (result, attempt + 1)
      else if attempt < maxAttempts - 1 then
        robustRetryAux attemptF maxAttempts (attempt + 1) lastError
      else (result, attempt + 1)
    | .error e =>
      if attempt < maxAttempts - 1 then
        robustRetryAux attemptF maxAttempts (attempt + 1) (some e)
      else (allRetriesFailed (some e), attempt + 1)
  else (allRetriesFailed lastError, attempt)
termination_by maxAttempts - attempt
decreasing_by all_goals omega

/-- Model of `robust_batch_insert_with_retry`: every attempt resubmits the
entire triple list; `batch_insert_triples` itself never raises (it catches
store exceptions per slice), so each attempt is an `ok` result. -/
def robust_batch_insert_with_retry
    (storeAt : Nat → Nat → List (Nat × Nat) → Except String Unit)
    (ts : List Triple) (maxAttempts : Nat) : BatchResult × Nat :=
  robustRetryAux (fun k => .ok (batch_insert_triples (storeAt k) ts))
    maxAttempts 0 none

theorem retryAux_stop (attemptF : Nat → Except String BatchResult)
    (m a : Nat) (le : Option String) (h : ¬ a < m) :
    robustRetryAux attemptF m a le = (allRetriesFailed le, a) := by
  rw [robustRetryAux, dif_neg h]

theorem retryAux_ok_done (attemptF : Nat → Except String BatchResult)
    (m a : Nat) (le : Option String) (r : BatchResult) (h : a < m)
    (hr : attemptF a = .ok r) (hf : r.failures = []) :
    robustRetryAux attemptF m a le = (r, a + 1) := by
  rw [robustRetryAux, dif_pos h, hr]
  simp [hf]

theorem retryAux_ok_last (attemptF : Nat → Except String BatchResult)
    (m a : Nat) (le : Option String) (r : BatchResult) (h : a < m)
    (hr : attemptF a = .ok r) (hf : r.failures ≠ []) (hge : ¬ a < m - 1) :
    robustRetryAux attemptF m a le = (r, a + 1) := by
  rw [robustRetryAux, dif_pos h, hr]
  simp [hf, hge]

theorem retryAux_ok_retry (attemptF : Nat → Except String BatchResult)
    (m a : Nat) (le : Option String) (r : BatchResult) (h : a < m)
    (hr : attemptF a = .ok r) (hf : r.failures ≠ []) (hlt : a < m - 1) :
    robustRetryAux attemptF m a le = robustRetryAux attemptF m (a + 1) le := by
  conv_lhs => rw [robustRetryAux]
  rw [dif_pos h, hr]
  simp [hf, hlt]

theorem retryAux_err_retry (attemptF : Nat → Except String BatchResult)
    (m a : Nat) (le : Option String) (e : String) (h : a < m)
    (hr : attemptF a = .error e) (hlt : a < m - 1) :
    robustRetryAux attemptF m a le = robustRetryAux attemptF m (a + 1) (some e) := by
  conv_lhs => rw [robustRetryAux]
  rw [dif_pos h, hr]
  simp [hlt]

theorem retryAux_err_last (attemptF : Nat → Except String BatchResult)
    (m a : Nat) (le : Option String) (e : String) (h : a < m)
    (hr : attemptF a = .error e) (hge : ¬ a < m - 1) :
    robustRetryAux attemptF m a le = (allRetriesFailed (some e), a + 1) := by
  rw [robustRetryAux, dif_pos h, hr]
  simp [hge]

/-- If the first K attempts fail (reported failures or thrown error) and
attempt K returns a result with no failures, the loop returns that result
after exactly K + 1 attempts. -/
theorem retryAux_success (attemptF : Nat → Except String BatchResult)
    (m K : Nat) (r : BatchResult) (hK : K < m) (hsucc : attemptF K = .ok r)
    (hempty : r.failures = []) :
    ∀ (d j : Nat) (le : Option String), j ≤ K → K - j = d →
      (∀ k, j ≤ k → k < K →
        (∃ e, attemptF k = .error e) ∨
        ∃ rk, attemptF k = .ok rk ∧ rk.failures ≠ []) →
      robustRetryAux attemptF m j le = (r, K + 1) := by
  intro d
  induction d with
  | zero =>
    intro j le hj hd _hfail
    have hjK : j = K := by omega
    subst hjK
    exact retryAux_ok_done attemptF m j le r (by omega) hsucc hempty
  | succ d ih =>
    intro j le hj hd hfail
    have hjK : j < K := by omega
    have hnext : ∀ k, j + 1 ≤ k → k < K →
        (∃ e, attemptF k = .error e) ∨
        ∃ rk, attemptF k = .ok rk ∧ rk.failures ≠ [] :=
      fun k hk1 hk2 => hfail k (by omega) hk2
    rcases hfail j (le_refl j) hjK with ⟨e, he⟩ | ⟨rk, hrk, hne⟩
    · rw [retryAux_err_retry attemptF m j le e (by omega) he (by omega)]
      exact ih (j + 1) (some e) (by omega) (by omega) hnext
    · rw [retryAux_ok_retry attemptF m j le rk (by omega) hrk hne (by omega)]
      exact ih (j + 1) le (by omega) (by omega) hnext

/-- If every attempt returns a result with reported failures, the loop runs
all m attempts and returns the last attempt's result. -/
theorem retryAux_exhaust (attemptF : Nat → Except String BatchResult) (m : Nat)
    (hfailall : ∀ k, k < m → ∃ rk, attemptF k = .ok rk ∧ rk.failures ≠ []) :
    ∀ (d j : Nat) (le : Option String), j < m → m - 1 - j = d →
      ∃ r, attemptF (m - 1) = .ok r ∧
        robustRetryAux attemptF m j le = (r, m) := by
  intro d
  induction d with
  | zero =>
    intro j le hj hd
    have hjm : j = m - 1 := by omega
    obtain ⟨r, hr, hne⟩ := hfailall j hj
    refine ⟨r, by rw [← hjm]; exact hr, ?_⟩
    rw [retryAux_ok_last attemptF m j le r hj hr hne (by omega)]
    have : j + 1 = m := by omega
    rw [this]
  | succ d ih =>
    intro j le hj hd
    have hjm : j < m - 1 := by omega
    obtain ⟨r, hr, hne⟩ := hfailall j hj
    rw [retryAux_ok_retry attemptF m j le r hj hr hne hjm]
    exact ih (j + 1) le (by omega) (by omega)

/-- The loop's value is always either the `ok` result of its final attempt,
or an all-retries-failed record. -/
theorem retryAux_shape (attemptF : Nat → Except String BatchResult) (m : Nat) :
    ∀ (d j : Nat) (le : Option String), m - j = d →
      (attemptF ((robustRetryAux attemptF m j le).2 - 1)
          = .ok (robustRetryAux attemptF m j le).1 ∧
        j < (robustRetryAux attemptF m j le).2 ∧
        (robustRetryAux attemptF m j le).2 ≤ m) ∨
      (∃ e, (robustRetryAux attemptF m j le).1 = allRetriesFailed e) := by
  intro d
  induction d with
  | zero =>
    intro j le hd
    rw [retryAux_stop attemptF m j le (by omega)]
    exact Or.inr ⟨le, rfl⟩
  | succ d ih =>
    intro j le hd
    have hj : j < m := by omega
    rcases hr : attemptF j with e | r
    · by_cases hlt : j < m - 1
      · rw [retryAux_err_retry attemptF m j le e hj hr hlt]
        rcases ih (j + 1) (some e) (by omega) with ⟨h1, h2, h3⟩ | h
        · exact Or.inl ⟨h1, by omega, h3⟩
        · exact Or.inr h
      · rw [retryAux_err_last attemptF m j le e hj hr hlt]
        exact Or.inr ⟨some e, rfl⟩
    · by_cases hf : r.failures = []
      · rw [retryAux_ok_done attemptF m j le r hj hr hf]
        exact Or.inl ⟨by simpa using hr, by omega, by omega⟩
      · by_cases hlt : j < m - 1
        · rw [retryAux_ok_retry attemptF m j le r hj hr hf hlt]
          rcases ih (j + 1) le (by omega) with ⟨h1, h2, h3⟩ | h
          · exact Or.inl ⟨h1, by omega, h3⟩
          · exact Or.inr h
        · rw [retryAux_ok_last attemptF m j le r hj hr hf hlt]
          exact Or.inl ⟨by simpa using hr, by omega, by omega⟩

/-- A batch insertion with at least one failing slice has a nonempty failure
list. -/
theorem batch_some_fail (store : Nat → List (Nat × Nat) → Except String Unit)
    (ts : List Triple) (c : Nat × List (Nat × Nat))
    (hc : c ∈ chunks128 0 (ts.flatMap triple_writes)) (e : String)
    (he : store c.1 c.2 = .error e) :
    (batch_insert_triples store ts).failures ≠ [] := by
  rw [batch_failures_eq]
  intro hnil
  have := List.filterMap_eq_nil_iff.mp hnil c hc
  rw [he] at this
  simp at this

/-- A nonempty triple list produces at least one slice. -/
theorem chunks_of_triples_ne_nil (ts : List Triple) (hts : ts ≠ []) :
    chunks128 0 (ts.flatMap triple_writes) ≠ [] := by
  intro hchunks
  rcases hts2 : ts with _ | ⟨t, ts2⟩
  · exact hts hts2
  · rw [hts2, List.flatMap_cons] at hchunks
    simp only [triple_writes, List.cons_append, chunks128] at hchunks
    exact (List.cons_ne_nil _ _) hchunks

/-- C3: robustBatchInsertWithRetry over N triples with maxAttempts A: if the
underlying batch insertion fails (at least one slice raising) on exactly the
first K < A attempts and every slice of attempt K succeeds, the call returns
success_count = N with an empty failures list after exactly K + 1 attempts;
if the store fails every slice on every attempt (and ts is nonempty, A >= 1),
the loop stops after exactly A attempts and returns success_count = 0 with a
nonempty failures list; every retry resubmits the entire triple set (each
attempt k computes batch_insert_triples of the full ts against the attempt-k
store), and the returned value is either the final attempt's batch result or
an explicit all-retries-failed record carrying the last error. -/
theorem claim_c3_robust_retry
    (storeAt : Nat → Nat → List (Nat × Nat) → Except String Unit)
    (ts : List Triple) (A K : Nat) :
    ((K < A ∧
      (∀ k, k < K → ∃ c ∈ chunks128 0 (ts.flatMap triple_writes),
        ∃ e, storeAt k c.1 c.2 = .error e) ∧
      (∀ c ∈ chunks128 0 (ts.flatMap triple_writes), storeAt K c.1 c.2 = .ok ())) →
      robust_batch_insert_with_retry storeAt ts A = (⟨ts.length, []⟩, K + 1)) ∧
    ((1 ≤ A ∧ ts ≠ [] ∧
      (∀ k, ∀ c ∈ chunks128 0 (ts.flatMap triple_writes),
        ∃ e, storeAt k c.1 c.2 = .error e)) →
      ((robust_batch_insert_with_retry storeAt ts A).2 = A ∧
       (robust_batch_insert_with_retry storeAt ts A).1.success_count = 0 ∧
       (robust_batch_insert_with_retry storeAt ts A).1.failures ≠ [])) ∧
    ((robust_batch_insert_with_retry storeAt ts A).1
        = batch_insert_triples
            (storeAt ((robust_batch_insert_with_retry storeAt ts A).2 - 1)) ts ∨
      ∃ e, (robust_batch_insert_with_retry storeAt ts A).1 = allRetriesFailed e) := by
  refine ⟨?_, ?_, ?_⟩
  · rintro ⟨hK, hfailK, hokK⟩
    rw [robust_batch_insert_with_retry]
    refine retryAux_success _ A K ⟨ts.length, []⟩ hK ?_ rfl K 0 none
      (Nat.zero_le K) rfl ?_
    · rw [batch_all_ok (storeAt K) ts hokK]
    · intro k _ hk2
      refine Or.inr ⟨batch_insert_triples (storeAt k) ts, rfl, ?_⟩
      obtain ⟨c, hc, e, he⟩ := hfailK k hk2
      exact batch_some_fail (storeAt k) ts c hc e he
  · rintro ⟨hA, hts, hbad⟩
    have hfailall : ∀ k, k < A →
        ∃ rk, (fun k => Except.ok (ε := String)
            (batch_insert_triples (storeAt k) ts)) k = .ok rk ∧
          rk.failures ≠ [] := by
      intro k _
      refine ⟨batch_insert_triples (storeAt k) ts, rfl, ?_⟩
      obtain ⟨c, hc⟩ := List.exists_mem_of_ne_nil _ (chunks_of_triples_ne_nil ts hts)
      obtain ⟨e, he⟩ := hbad k c hc
      exact batch_some_fail (storeAt k) ts c hc e he
    obtain ⟨r, hr, hrun⟩ := retryAux_exhaust _ A hfailall (A - 1) 0 none
      (by omega) (by omega)
    have hreq : r = batch_insert_triples (storeAt (A - 1)) ts := by
      have := hr
      simp only [Except.ok.injEq] at this
      exact this.symm
    rw [robust_batch_insert_with_retry, hrun, hreq]
    refine ⟨rfl, ?_, ?_⟩
    · exact (batch_all_fail (storeAt (A - 1)) ts (hbad (A - 1))).1
    · exact (batch_all_fail (storeAt (A - 1)) ts (hbad (A - 1))).2 hts
  · rcases retryAux_shape (fun k => .ok (batch_insert_triples (storeAt k) ts))
        A A 0 none rfl with ⟨h1, _, _⟩ | h
    · left
      rw [robust_batch_insert_with_retry]
      have := h1
      simp only [Except.ok.injEq] at this
      exact this.symm
    · exact Or.inr h

/-- Witness for C3: an always-succeeding store with one triple, A = 3
attempts and K = 0 prior failures returns (success_count 1, no failures)
after one attempt. -/
theorem claim_c3_robust_retry_witness :
    robust_batch_insert_with_retry (fun _ _ _ => .ok ()) [⟨1, 2, 3⟩] 3
      = (⟨1, []⟩, 1) :=
  (claim_c3_robust_retry (fun _ _ _ => .ok ()) [⟨1, 2, 3⟩] 3 0).1
    ⟨by omega, fun k hk => absurd hk (Nat.not_lt_zero k), fun c _ => rfl⟩

/-! ### The fromString debug reverse-lookup cache (keys.py)

`keys.py` holds a module-level `_kv_store: dict[int, str] = {}`;
`E.from_str(value)` computes `id_ = uuid5(NAMESPACE_DNS, value).int` and then
runs `_kv_store.setdefault(id_, value)` — an insertion with NO eviction of
any kind.  The external uuid5 hash is abstracted as a parameter
`uuidOf : String -> Nat`.  The cache is an association list keyed by the
id. -/

/-- Python `dict.setdefault(k, v)`: inserts only when the key is absent. -/
def kv_setdefault (store : List (Nat × String)) (k : Nat) (v : String) :
    List (Nat × String) :=
  if (store.lookup k).isSome then store else (k, v) :: store

/-- Model of `E.from_str`: the returned entity id and the updated cache. -/
def from_str (uuidOf : String → Nat) (store : List (Nat × String))
    (s : String) : Nat × List (Nat × String) :=
  (uuidOf s, kv_setdefault store (uuidOf s) s)

/-- The cache after a sequence of `from_str` calls. -/
def runFromStr (uuidOf : String → Nat) :
    List String → List (Nat × String) → List (Nat × String)
  | [], store => store
  | s :: ss, store => runFromStr uuidOf ss (from_str uuidOf store s).2

/-- Each call whose id is fresh adds exactly one entry, permanently: after
calls on inputs with pairwise distinct ids all absent from the cache, the
cache has grown by the number of calls. -/
theorem runFromStr_length_of_fresh (uuidOf : String → Nat)
    (inputs : List String) (store : List (Nat × String))
    (h : ∀ s ∈ inputs, (store.lookup (uuidOf s)).isNone)
    (hnodup : (inputs.map uuidOf).Nodup) :
    (runFromStr uuidOf inputs store).length = store.length + inputs.length := by
  induction inputs generalizing store with
  | nil => rfl
  | cons s ss ih =>
    have hfresh : (store.lookup (uuidOf s)).isNone :=
      h s (List.mem_cons_self s ss)
    have hstep : (from_str uuidOf store s).2 = (uuidOf s, s) :: store := by
      rw [from_str, kv_setdefault]
      rw [Option.isNone_iff_eq_none] at hfresh
      rw [hfresh]
      rfl
    rw [List.map_cons, List.nodup_cons] at hnodup
    have hnext : ∀ u ∈ ss, (((uuidOf s, s) :: store).lookup (uuidOf u)).isNone := by
      intro u hu
      have hne : uuidOf u ≠ uuidOf s := by
        intro heq
        exact hnodup.1 (heq ▸ List.mem_map_of_mem uuidOf hu)
      rw [List.lookup_cons]
      have hbeq : (uuidOf u == uuidOf s) = false := by
        simpa using hne
      rw [hbeq]
      exact h u (List.mem_cons_of_mem s hu)
    show (runFromStr uuidOf ss (from_str uuidOf store s).2).length = _
    rw [hstep, ih _ hnext hnodup.2]
    simp
    omega

/-- Counterexample to C9 as stated: no fixed capacity bounds the cache.  For
any proposed capacity C there is an id function and a list of C + 1 distinct
inputs with distinct ids after which the cache holds C + 1 > C entries (the
code's `setdefault` on a plain module dict never evicts). -/
theorem claim_c9_counterexample :
    ¬ ∃ C : Nat, ∀ (uuidOf : String → Nat) (inputs : List String),
      inputs.Nodup → (runFromStr uuidOf inputs []).length ≤ C := by
  rintro ⟨C, hC⟩
  have hmap : ((List.range (C + 1)).map
      (fun i => String.mk (List.replicate i 'a'))).map String.length
      = List.range (C + 1) := by
    rw [List.map_map]
    have hcomp : (String.length ∘ fun i => String.mk (List.replicate i 'a'))
        = id := by
      funext i
      show (String.mk (List.replicate i 'a')).length = i
      show (List.replicate i 'a').length = i
      exact List.length_replicate i _
    rw [hcomp, List.map_id]
  have hnodupids : (((List.range (C + 1)).map
      (fun i => String.mk (List.replicate i 'a'))).map String.length).Nodup := by
    rw [hmap]; exact List.nodup_range _
  have hnodup : ((List.range (C + 1)).map
      (fun i => String.mk (List.replicate i 'a'))).Nodup :=
    List.Nodup.of_map String.length hnodupids
  have hbound := hC String.length _ hnodup
  have hgrow := runFromStr_length_of_fresh String.length
    ((List.range (C + 1)).map (fun i => String.mk (List.replicate i 'a'))) []
    (fun s _ => rfl) hnodupids
  rw [hgrow] at hbound
  simp only [List.length_nil, List.length_map, List.length_range] at hbound
  omega

/-- C9 amended: the debug reverse-lookup cache is NOT size-bounded: nothing
is ever evicted, and after any sequence of fromString calls whose ids are
pairwise distinct, starting from an empty cache, the cache holds exactly one
entry per call. -/
theorem claim_c9_cache_unbounded_amended (uuidOf : String → Nat)
    (inputs : List String) (hnodup : (inputs.map uuidOf).Nodup) :
    (runFromStr uuidOf inputs []).length = inputs.length := by
  have h := runFromStr_length_of_fresh uuidOf inputs [] (fun s _ => rfl) hnodup
  simpa using h

/-- Witness for C9 amended: two calls with distinct ids leave two entries. -/
theorem claim_c9_cache_unbounded_amended_witness :
    (runFromStr String.length ["a", "bb"] []).length = 2 :=
  claim_c9_cache_unbounded_amended String.length ["a", "bb"] (by decide)

/-! ### Content hasher (hashcache.py)

`compute_hash_from_tuple(key)` packs the 12-lane tuple as 12 big-endian
unsigned 64-bit words (`struct.pack(">Q", int(x) & ((1 << 64) - 1))`),
digests the 96-byte blob with `hashlib.sha256`, and returns the lowercase
hex digest together with `E.from_int(int.from_bytes(h, "big"))`.
`get_triple_hash` memoizes it through `functools.lru_cache(maxsize=16384)`
keyed by the exact 12-lane tuple.  The external SHA-256 primitive is
abstracted as a byte-list function `sha`; everything the repository defines
around it (lane order, packing, hex, integer conversion, caching) is
modelled from the source.  Bytes are `Nat` values below 256. -/

/-- Big-endian byte serialisation of `n` bytes, as `struct.pack(">Q", x)`
produces for n = 8. -/
def toBytesBE : Nat → Nat → List Nat
  | 0, _ => []
  | n + 1, x => toBytesBE n (x / 256) ++ [x % 256]

/-- The 12-lane tuple of `_tuple_from_triple`: subject's four lanes, then
the predicate's, then the object's. -/
def laneTuple (t : Triple) : List Nat :=
  [ehigh t.subject, ehighMid t.subject, elowMid t.subject, elow t.subject,
   ehigh t.predicate, ehighMid t.predicate, elowMid t.predicate, elow t.predicate,
   ehigh t.object, ehighMid t.object, elowMid t.object, elow t.object]

/-- The 96-byte blob: each lane masked to 64 bits and packed big-endian. -/
def packKey (key : List Nat) : List Nat :=
  key.flatMap (fun x => toBytesBE 8 (x % 2 ^ 64))

/-- One lowercase hex digit. -/
def hexDigit (n : Nat) : Char :=
  if n < 10 then Char.ofNat (48 + n) else Char.ofNat (87 + n)

/-- Two lowercase hex digits of one byte, as `bytes.hex()` produces. -/
def hexByte (b : Nat) : List Char :=
  [hexDigit (b / 16), hexDigit (b % 16)]

/-- Lowercase hex string of a byte list (`h.hex()`). -/
def hexOfBytes (bs : List Nat) : String :=
  String.mk (bs.flatMap hexByte)

/-- Big-endian integer value of a byte list (`int.from_bytes(h, "big")`). -/
def natFromBytesBE (bs : List Nat) : Nat :=
  bs.foldl (fun acc b => acc * 256 + b) 0

/-- Model of `compute_hash_from_tuple`, with the SHA-256 digest function as
a parameter: packs the key, digests it, and pairs the hex digest with the
`E.from_int` of the big-endian digest value (the range assertion modelled by
`Except`). -/
def compute_hash_from_tuple (sha : List Nat → List Nat) (key : List Nat) :
    Except String (String × Nat) :=
  match efromInt (natFromBytesBE (sha (packKey key))) with
  | .ok e => .ok (hexOfBytes (sha (packKey key)), e)
  | .error msg => .error msg

/-- A bounded LRU memoisation step (`functools.lru_cache`): the cache is a
most-recent-first association list; a hit returns the stored value and
refreshes its recency, a miss computes, stores, and clips to `maxsize`. -/
def cachedCompute {K V : Type} [BEq K] (compute : K → V) (maxsize : Nat)
    (cache : List (K × V)) (k : K) : V × List (K × V) :=
  match cache.lookup k with
  | some v => (v, (k, v) :: cache.filter (fun p => !(p.1 == k)))
  | none => (compute k, ((k, compute k) :: cache).take maxsize)

/-- Model of `get_triple_hash`: the cached computation keyed by the numeric
lane tuple of the triple. -/
def get_triple_hash (sha : List Nat → List Nat)
    (cache : List (List Nat × Except String (String × Nat))) (t : Triple) :
    Except String (String × Nat) × List (List Nat × Except String (String × Nat)) :=
  cachedCompute (compute_hash_from_tuple sha) 16384 cache (laneTuple t)

theorem toBytesBE_length (n x : Nat) : (toBytesBE n x).length = n := by
  induction n generalizing x with
  | zero => rfl
  | succ n ih => simp [toBytesBE, ih]

theorem packKey_length (key : List Nat) : (packKey key).length = 8 * key.length := by
  induction key with
  | nil => rfl
  | cons x key ih =>
    rw [packKey, List.flatMap_cons, List.length_append]
    rw [packKey] at ih
    rw [ih, toBytesBE_length]
    simp
    omega

theorem hexOfBytes_length (bs : List Nat) : (hexOfBytes bs).length = 2 * bs.length := by
  show (bs.flatMap hexByte).length = 2 * bs.length
  induction bs with
  | nil => rfl
  | cons b bs ih =>
    rw [List.flatMap_cons, List.length_append, ih]
    simp [hexByte]
    omega

theorem foldl_bytes_lt (bs : List Nat) :
    ∀ acc, (∀ b ∈ bs, b < 256) →
      bs.foldl (fun a b => a * 256 + b) acc < (acc + 1) * 256 ^ bs.length := by
  induction bs with
  | nil =>
    intro acc _
    simpa using Nat.lt_succ_self acc
  | cons b bs ih =>
    intro acc h
    have hb : b < 256 := h b (List.mem_cons_self b bs)
    have hrec := ih (acc * 256 + b) (fun u hu => h u (List.mem_cons_of_mem b hu))
    calc (b :: bs).foldl (fun a u => a * 256 + u) acc
        = bs.foldl (fun a u => a * 256 + u) (acc * 256 + b) := rfl
      _ < (acc * 256 + b + 1) * 256 ^ bs.length := hrec
      _ ≤ ((acc + 1) * 256) * 256 ^ bs.length := by
          apply Nat.mul_le_mul_right
          omega
      _ = (acc + 1) * 256 ^ (b :: bs).length := by
          rw [List.length_cons, pow_succ]
          ring

theorem natFromBytesBE_lt (bs : List Nat) (h : ∀ b ∈ bs, b < 256) :
    natFromBytesBE bs < 256 ^ bs.length := by
  have := foldl_bytes_lt bs 0 h
  simpa [natFromBytesBE] using this

theorem hexDigit_lowercase :
    ∀ n, n < 16 →
      (48 ≤ (hexDigit n).toNat ∧ (hexDigit n).toNat ≤ 57) ∨
      (97 ≤ (hexDigit n).toNat ∧ (hexDigit n).toNat ≤ 102) := by
  decide

/-- Every character of a byte's hex rendering is a lowercase hex digit
(0-9 or a-f). -/
theorem hexByte_lowercase (b : Nat) (hb : b < 256) :
    ∀ ch ∈ hexByte b,
      (48 ≤ ch.toNat ∧ ch.toNat ≤ 57) ∨ (97 ≤ ch.toNat ∧ ch.toNat ≤ 102) := by
  intro ch hch
  rw [hexByte] at hch
  rcases List.mem_cons.mp hch with hch2 | hch2
  · rw [hch2]
    exact hexDigit_lowercase (b / 16) (by omega)
  · rcases List.mem_cons.mp hch2 with hch3 | hch3
    · rw [hch3]
      exact hexDigit_lowercase (b % 16) (by omega)
    · exact absurd hch3 (List.not_mem_nil ch)

theorem lookup_coherent {K V : Type} [BEq K] [LawfulBEq K] (compute : K → V)
    (cache : List (K × V)) (hcoh : ∀ p ∈ cache, p.2 = compute p.1) (k : K)
    (v : V) (hl : cache.lookup k = some v) : v = compute k := by
  induction cache with
  | nil => simp [List.lookup] at hl
  | cons a l ih =>
    rw [List.lookup] at hl
    rcases hbeq : k == a.1 with _ | _
    · rw [hbeq] at hl
      exact ih (fun p hp => hcoh p (List.mem_cons_of_mem a hp)) hl
    · rw [hbeq] at hl
      have hk : k = a.1 := eq_of_beq hbeq
      have hv : a.2 = v := by
        cases a
        simpa using hl
      rw [← hv, hk]
      exact hcoh a (List.mem_cons_self a l)

theorem cachedCompute_fst {K V : Type} [BEq K] [LawfulBEq K] (compute : K → V)
    (m : Nat) (cache : List (K × V)) (k : K)
    (hcoh : ∀ p ∈ cache, p.2 = compute p.1) :
    (cachedCompute compute m cache k).1 = compute k := by
  rw [cachedCompute]
  rcases hl : cache.lookup k with _ | v
  · rfl
  · exact lookup_coherent compute cache hcoh k v hl

theorem cachedCompute_coh {K V : Type} [BEq K] [LawfulBEq K] (compute : K → V)
    (m : Nat) (cache : List (K × V)) (k : K)
    (hcoh : ∀ p ∈ cache, p.2 = compute p.1) :
    ∀ p ∈ (cachedCompute compute m cache k).2, p.2 = compute p.1 := by
  rw [cachedCompute]
  rcases hl : cache.lookup k with _ | v
  · intro p hp
    have hp2 := List.mem_of_mem_take hp
    rcases List.mem_cons.mp hp2 with hp3 | hp3
    · rw [hp3]
    · exact hcoh p hp3
  · intro p hp
    rcases List.mem_cons.mp hp with hp2 | hp2
    · rw [hp2]
      exact lookup_coherent compute cache hcoh k v hl
    · exact hcoh p (List.mem_of_mem_filter hp2)

/-- C6: tripleHash returns the pair (hex, e): the blob is the 96-byte
big-endian packing of the triple's 12 lanes (subject's four lanes, then the
predicate's, then the object's); hex is the 64-character lowercase hex
rendering of the SHA-256 digest of that blob; e is the entity whose integer
value is the digest read big-endian (below 2^256, so the from_int assertion
succeeds); a cached call returns exactly the fresh computation, and a
repeated call on the same 12-lane tuple returns a bit-identical result.
The SHA-256 primitive itself is external (hashlib); it is abstracted as an
arbitrary function producing a 32-byte digest. -/
theorem claim_c6_triple_hash (sha : List Nat → List Nat) (t : Triple)
    (cache : List (List Nat × Except String (String × Nat)))
    (hlen : (sha (packKey (laneTuple t))).length = 32)
    (hbytes : ∀ b ∈ sha (packKey (laneTuple t)), b < 256)
    (hcoh : ∀ p ∈ cache, p.2 = compute_hash_from_tuple sha p.1) :
    (packKey (laneTuple t)).length = 96 ∧
    compute_hash_from_tuple sha (laneTuple t)
      = .ok (hexOfBytes (sha (packKey (laneTuple t))),
             natFromBytesBE (sha (packKey (laneTuple t)))) ∧
    natFromBytesBE (sha (packKey (laneTuple t))) < 2 ^ 256 ∧
    (hexOfBytes (sha (packKey (laneTuple t)))).length = 64 ∧
    (∀ ch ∈ (hexOfBytes (sha (packKey (laneTuple t)))).data,
      (48 ≤ ch.toNat ∧ ch.toNat ≤ 57) ∨ (97 ≤ ch.toNat ∧ ch.toNat ≤ 102)) ∧
    (get_triple_hash sha cache t).1 = compute_hash_from_tuple sha (laneTuple t) ∧
    (get_triple_hash sha (get_triple_hash sha cache t).2 t).1
      = (get_triple_hash sha cache t).1 := by
  have hval : natFromBytesBE (sha (packKey (laneTuple t))) < 2 ^ 256 := by
    have h1 := natFromBytesBE_lt _ hbytes
    rw [hlen] at h1
    have h2 : (256 : Nat) ^ 32 = 2 ^ 256 := by norm_num
    rw [h2] at h1
    exact h1
  have hcomp : compute_hash_from_tuple sha (laneTuple t)
      = .ok (hexOfBytes (sha (packKey (laneTuple t))),
             natFromBytesBE (sha (packKey (laneTuple t)))) := by
    rw [compute_hash_from_tuple, efromInt, if_pos hval]
  have hfst := cachedCompute_fst (compute_hash_from_tuple sha) 16384 cache
    (laneTuple t) hcoh
  have hcoh2 := cachedCompute_coh (compute_hash_from_tuple sha) 16384 cache
    (laneTuple t) hcoh
  refine ⟨?_, hcomp, hval, ?_, ?_, hfst, ?_⟩
  · rw [packKey_length]
    rfl
  · rw [hexOfBytes_length, hlen]
  · intro ch hch
    have hch2 : ch ∈ (sha (packKey (laneTuple t))).flatMap hexByte := hch
    obtain ⟨b, hb, hchb⟩ := List.mem_flatMap.mp hch2
    exact hexByte_lowercase b (hbytes b hb) ch hchb
  · show (cachedCompute (compute_hash_from_tuple sha) 16384
        (cachedCompute (compute_hash_from_tuple sha) 16384 cache (laneTuple t)).2
        (laneTuple t)).1
      = (cachedCompute (compute_hash_from_tuple sha) 16384 cache (laneTuple t)).1
    rw [cachedCompute_fst (compute_hash_from_tuple sha) 16384 _ (laneTuple t) hcoh2,
      hfst]

/-- Witness for C6 with a stand-in 32-zero-byte digest function, an empty
cache and the triple (1, 2, 3): the packed blob has 96 bytes. -/
theorem claim_c6_triple_hash_witness :
    (packKey (laneTuple ⟨1, 2, 3⟩)).length = 96 :=
  (claim_c6_triple_hash (fun _ => List.replicate 32 0) ⟨1, 2, 3⟩ []
    (by decide) (by decide) (fun p hp => absurd hp (List.not_mem_nil p))).1

/-! ### Numeric range plugin (plugins/numeric.py)

`NumericRangeDS` keeps `self.data` (a dict subject -> numeric value) and
`self.range_index` (a SortedDict value -> set of subjects).  Numeric values
(Python int/float) are modelled as `ℚ`; dicts as association lists (only
lookup order matters, and the keys stay duplicate-free under the
operations); sets as duplicate-free lists.  The value->bucket index's
sortedness only affects iteration order, which no claim relies on, so the
bucket list is kept unsorted and range queries filter it.

`configure` sets `self.min_value` / `self.max_value` from the config dict;
`__init__` does NOT create those attributes, so we track them as
`minmax : Option (Option ℚ × Option ℚ)`: `none` models the attributes not
existing (configure never ran — accessing them raises AttributeError), and
`some (mn, mx)` models configured optional bounds.  `restore_snapshot`
(which goes through the base class) assigns `self.config` but never the
bound attributes, so it leaves `minmax` unchanged.

`set`'s `isinstance(object_value, (int, float))` TypeError branch is outside
the model: all modelled values are numeric.

The snapshot/restore cycle converts every bucket key through
`str(value)` (at snapshot time) and `float(value_str)` (at restore time).
That composite is NOT the identity: a stored Python float round-trips
through `repr` exactly, but a stored int is written in exact decimal and
parsed back to the NEAREST IEEE-754 binary64 (round to nearest, ties to
even), so distinct ints above 2^53 can collapse to the same key, and
`self.range_index[value] = set(...)` then overwrites the earlier bucket.
The model implements this as `strFloatRoundtrip`: nearest-double rounding
on integer values, identity on non-integers (a non-integer stored value is
necessarily a float, hence an exact double).  Integers of magnitude at
least 2^1024 would overflow to `inf` in Python; the model has no infinity
and leaves them finite — no claim exercises such values.  The snapshot
serialises `self.range_index.items()` in SortedDict order, i.e. ascending
by key, and the restore loop assigns buckets in that order, so the model
sorts the entries at snapshot time and folds dict assignments at restore
time. -/

/-- Association-list lookup (Python dict `get` / `in`). -/
def alookup {α β : Type} [DecidableEq α] : List (α × β) → α → Option β
  | [], _ => none
  | p :: l, k => if p.1 = k then some p.2 else alookup l k

/-- Removal of a key (Python `del d[k]`). -/
def aerase {α β : Type} [DecidableEq α] (l : List (α × β)) (k : α) :
    List (α × β) :=
  l.filter (fun p => decide (p.1 ≠ k))

/-- In-place update of the value at a key (mutating `d[k]`). -/
def aupd {α β : Type} [DecidableEq α] (l : List (α × β)) (k : α) (f : β → β) :
    List (α × β) :=
  l.map (fun p => if p.1 = k then (p.1, f p.2) else p)

/-- Dict assignment `d[k] = v`. -/
def ains {α β : Type} [DecidableEq α] (l : List (α × β)) (k : α) (v : β) :
    List (α × β) :=
  (k, v) :: aerase l k

/-- Python `set.add`. -/
def badd (b : List String) (s : String) : List String :=
  if s ∈ b then b else s :: b

/-- Plugin state: primary map, secondary index, bound attributes. -/
structure NumericState where
  data : List (String × ℚ)
  range_index : List (ℚ × List String)
  minmax : Option (Option ℚ × Option ℚ)

/-- Serialised snapshot: `{plugin_class, data: {subjects, range_index}}`. -/
structure NumericSnapshot where
  plugin_class : String
  subjects : List (String × ℚ)
  rindex : List (ℚ × List String)

/-- The bucket of a value in the secondary index (empty when the value is
not a key). -/
def bget (ri : List (ℚ × List String)) (v : ℚ) : List String :=
  (alookup ri v).getD []

/-- The bucket of a value in a plugin state. -/
def BucketOf (st : NumericState) (v : ℚ) : List String :=
  bget st.range_index v

/-- The shared removal step of `set` and `delete`: if the old value is a key
of the index, discard the subject from its bucket and delete the bucket if
it became empty. -/
def removeSub (ri : List (ℚ × List String)) (ov : ℚ) (s : String) :
    List (ℚ × List String) :=
  if (alookup ri ov).isSome then
    if (alookup (aupd ri ov (fun b => b.filter (fun u => decide (u ≠ s)))) ov).getD []
        = [] then
      aerase (aupd ri ov (fun b => b.filter (fun u => decide (u ≠ s)))) ov
    else aupd ri ov (fun b => b.filter (fun u => decide (u ≠ s)))
  else ri

/-- The mutation part of `set` (after validation): remove the subject from
its prior bucket, store the new value, ensure the new value's bucket exists
and add the subject to it. -/
def mutateSet (st : NumericState) (s : String) (v : ℚ) : NumericState :=
  let ri1 := match alookup st.data s with
    | some ov => removeSub st.range_index ov s
    | none => st.range_index
  let ri3 := if (alookup ri1 v).isSome then ri1 else (v, []) :: ri1
  { st with
    data := ains st.data s v,
    range_index := aupd ri3 v (fun b => badd b s) }

/-- Model of `NumericRangeDS.set`: missing bound attributes raise
AttributeError; configured bounds raise ValueError when violated; otherwise
both indices are updated. -/
def nset (st : NumericState) (s : String) (v : ℚ) :
    Except String NumericState :=
  match st.minmax with
  | none => .error "AttributeError: min_value"
  | some (mn, mx) =>
    if (match mn with | some m => decide (v < m) | none => false) then
      .error "Value below minimum"
    else if (match mx with | some m => decide (m < v) | none => false) then
      .error "Value above maximum"
    else .ok (mutateSet st s v)

/-- Model of `NumericRangeDS.delete`: returns the updated state and whether
the subject existed. -/
def ndelete (st : NumericState) (s : String) : NumericState × Bool :=
  match alookup st.data s with
  | none => (st, false)
  | some ov =>
    ({ st with
        data := aerase st.data s,
        range_index := removeSub st.range_index ov s }, true)

/-- Fuel-driven search for the shift needed to bring `m` under 2^53 bits of
significand (the fuel is always at least the answer when called with
`shiftFor n n`). -/
def shiftFor : Nat → Nat → Nat
  | 0, _ => 0
  | fuel + 1, m => if m < 2 ^ 53 then 0 else shiftFor fuel (m / 2) + 1

/-- Round a natural number to 53 significant bits, round to nearest with
ties to even — the value `float(str(n))` yields for a non-negative int `n`
(below the 2^1024 overflow threshold). -/
def roundSigNat (n : Nat) : Nat :=
  if shiftFor n n = 0 then n
  else
    (if 2 ^ (shiftFor n n - 1) < n % 2 ^ shiftFor n n
        ∨ (n % 2 ^ shiftFor n n = 2 ^ (shiftFor n n - 1)
           ∧ (n / 2 ^ shiftFor n n) % 2 = 1)
      then n / 2 ^ shiftFor n n + 1
      else n / 2 ^ shiftFor n n) * 2 ^ shiftFor n n

/-- The composite `float(str(value))` a bucket key undergoes across a
snapshot/restore cycle.  A stored non-integer is a Python float, whose
`repr` round-trips exactly (identity); a stored integer is written in exact
decimal and parsed back to the nearest binary64, which is lossy above
2^53. -/
def strFloatRoundtrip (v : ℚ) : ℚ :=
  if v.den = 1 then
    if 0 ≤ v.num then ((roundSigNat v.num.toNat : ℤ) : ℚ)
    else -((roundSigNat (-v.num).toNat : ℤ) : ℚ)
  else v

/-- Insertion into a key-sorted entry list. -/
def insertSorted (p : ℚ × List String) :
    List (ℚ × List String) → List (ℚ × List String)
  | [] => [p]
  | q :: l => if p.1 ≤ q.1 then p :: q :: l else q :: insertSorted p l

/-- The entries of the index in ascending key order, as
`SortedDict.items()` yields them at snapshot time. -/
def sortByKey : List (ℚ × List String) → List (ℚ × List String)
  | [] => []
  | p :: l => insertSorted p (sortByKey l)

/-- The restore loop: for each serialised entry, convert the key with
`float(value_str)` and assign `set(subjects_list)` into the fresh index;
a later entry whose converted key collides overwrites the earlier bucket,
exactly as the dict assignment does. -/
def restoreIndex (entries : List (ℚ × List String)) :
    List (ℚ × List String) :=
  entries.foldl (fun acc p => ains acc (strFloatRoundtrip p.1) p.2.dedup) []

/-- Model of `NumericRangeDS.snapshot`: the class tag, the primary map, and
the index entries in ascending key order (stringification of the keys is
deferred to `strFloatRoundtrip` at restore time, where its lossiness
materialises). -/
def nsnapshot (st : NumericState) : NumericSnapshot :=
  ⟨"NumericRangeDS", st.data, sortByKey st.range_index⟩

/-- Model of `NumericRangeDS.restore_snapshot`: the base class validates the
plugin class (and assigns `self.config`, leaving the bound attributes
untouched), then the primary map is taken as-is and the index is rebuilt
entry by entry through the key conversion and `set(...)` (duplicates inside
a bucket collapse; colliding converted keys overwrite). -/
def nrestore (st : NumericState) (snap : NumericSnapshot) :
    Except String NumericState :=
  if snap.plugin_class = "NumericRangeDS" then
    .ok { st with
      data := snap.subjects,
      range_index := restoreIndex snap.rindex }
  else .error "Snapshot is for another plugin class"

/-- Model of `NumericRangeDS.find_subjects_in_range`: ordering validation,
then the union of the buckets whose value key lies in [lo, hi]. -/
def find_subjects_in_range (st : NumericState) (lo hi : ℚ) :
    Except String (List String) :=
  if lo > hi then .error "min_val must be <= max_val"
  else .ok ((st.range_index.filter
      (fun p => decide (lo ≤ p.1 ∧ p.1 ≤ hi))).flatMap (fun p => p.2))

/-- A fresh instance (`__init__`), with the given bound-attribute status. -/
def ninit (mm : Option (Option ℚ × Option ℚ)) : NumericState := ⟨[], [], mm⟩

/-- The mutations of the claim: set, delete, and a snapshot/restore cycle.
A raising call (validation failure, missing attributes) leaves the state
unchanged. -/
inductive NOp where
  | nopset (s : String) (v : ℚ)
  | nopdel (s : String)
  | nopsnap

def applyOp (st : NumericState) : NOp → NumericState
  | .nopset s v =>
    match nset st s v with
    | .ok st2 => st2
    | .error _ => st
  | .nopdel s => (ndelete st s).1
  | .nopsnap =>
    match nrestore st (nsnapshot st) with
    | .ok st2 => st2
    | .error _ => st

def runOps (ops : List NOp) (st : NumericState) : NumericState :=
  ops.foldl applyOp st

/-! Association-list lemmas. -/

theorem alookup_aerase {α β : Type} [DecidableEq α] (l : List (α × β)) (k u : α) :
    alookup (aerase l k) u = if u = k then none else alookup l u := by
  induction l with
  | nil => simp [aerase, alookup]
  | cons p l ih =>
    rw [aerase, List.filter_cons]
    by_cases hp : p.1 = k
    · have hcond : decide (p.1 ≠ k) = false := by simp [hp]
      simp only [hcond, Bool.false_eq_true, if_false]
      rw [← aerase, ih]
      by_cases hu : u = k
      · simp [hu]
      · rw [if_neg hu, if_neg hu, alookup,
          if_neg (fun hc => hu (hc.symm.trans hp))]
    · have hcond : decide (p.1 ≠ k) = true := by simp [hp]
      simp only [hcond, if_true]
      rw [alookup, ← aerase, ih]
      by_cases hpu : p.1 = u
      · rw [if_pos hpu, if_neg (fun hc => hp (hpu.trans hc)), alookup,
          if_pos hpu]
      · rw [if_neg hpu]
        by_cases hu : u = k
        · simp [hu]
        · rw [if_neg hu, if_neg hu, alookup, if_neg hpu]

theorem alookup_aupd {α β : Type} [DecidableEq α] (l : List (α × β)) (k : α)
    (f : β → β) (u : α) :
    alookup (aupd l k f) u
      = if u = k then (alookup l u).map f else alookup l u := by
  induction l with
  | nil => simp [aupd, alookup]
  | cons p l ih =>
    rw [aupd, List.map_cons, ← aupd]
    by_cases h1 : p.1 = k
    · rw [if_pos h1, alookup]
      by_cases h2 : p.1 = u
      · have hu : u = k := h2.symm.trans h1
        rw [if_pos h2, if_pos hu, alookup, if_pos h2]
        rfl
      · rw [if_neg h2, ih]
        by_cases hu : u = k
        · rw [if_pos hu, if_pos hu, alookup, if_neg h2]
        · rw [if_neg hu, if_neg hu, alookup, if_neg h2]
    · rw [if_neg h1, alookup]
      by_cases h2 : p.1 = u
      · have hu : ¬ u = k := fun hc => h1 (h2.trans hc)
        rw [if_pos h2, if_neg hu, alookup, if_pos h2]
      · rw [if_neg h2, ih]
        by_cases hu : u = k
        · rw [if_pos hu, if_pos hu, alookup, if_neg h2]
        · rw [if_neg hu, if_neg hu, alookup, if_neg h2]

theorem alookup_ains {α β : Type} [DecidableEq α] (l : List (α × β)) (k u : α)
    (v : β) :
    alookup (ains l k v) u = if u = k then some v else alookup l u := by
  rw [ains, alookup, alookup_aerase]
  by_cases h : k = u
  · simp [h]
  · have h2 : ¬ u = k := fun hc => h hc.symm
    simp [h, h2]

theorem alookup_eq_none_iff {α β : Type} [DecidableEq α] (l : List (α × β))
    (k : α) : alookup l k = none ↔ k ∉ l.map Prod.fst := by
  induction l with
  | nil => simp [alookup]
  | cons p l ih =>
    rw [alookup]
    by_cases h : p.1 = k
    · simp [h]
    · simp only [h, if_false, ih, List.map_cons, List.mem_cons]
      constructor
      · intro hk hor
        rcases hor with hor | hor
        · exact h hor.symm
        · exact hk hor
      · intro hk
        exact fun hc => hk (Or.inr hc)

theorem alookup_mem {α β : Type} [DecidableEq α] (l : List (α × β)) (k : α)
    (b : β) (h : alookup l k = some b) : (k, b) ∈ l := by
  induction l with
  | nil => simp [alookup] at h
  | cons p l ih =>
    rcases p with ⟨pk, pv⟩
    rw [alookup] at h
    by_cases hp : pk = k
    · rw [if_pos hp] at h
      have hb : pv = b := by simpa using h
      refine List.mem_cons.mpr (Or.inl ?_)
      rw [← hp, ← hb]
    · rw [if_neg hp] at h
      exact List.mem_cons_of_mem _ (ih h)

theorem mem_alookup {α β : Type} [DecidableEq α] (l : List (α × β)) (k : α)
    (b : β) (hnd : (l.map Prod.fst).Nodup) (h : (k, b) ∈ l) :
    alookup l k = some b := by
  induction l with
  | nil => exact absurd h (List.not_mem_nil _)
  | cons p l ih =>
    rw [List.map_cons, List.nodup_cons] at hnd
    rcases List.mem_cons.mp h with h2 | h2
    · rw [alookup, ← h2]
      simp
    · have hk : k ∈ l.map Prod.fst := List.mem_map_of_mem Prod.fst h2
      have hne : p.1 ≠ k := fun hc => hnd.1 (hc ▸ hk)
      rw [alookup, if_neg hne]
      exact ih hnd.2 h2

theorem keys_aupd {α β : Type} [DecidableEq α] (l : List (α × β)) (k : α)
    (f : β → β) : (aupd l k f).map Prod.fst = l.map Prod.fst := by
  rw [aupd, List.map_map]
  apply List.map_congr_left
  intro p _
  by_cases h : p.1 = k <;> simp [h]

theorem keys_aerase_nodup {α β : Type} [DecidableEq α] (l : List (α × β))
    (k : α) (hnd : (l.map Prod.fst).Nodup) :
    ((aerase l k).map Prod.fst).Nodup := by
  refine List.Nodup.sublist ?_ hnd
  exact List.Sublist.map Prod.fst (List.filter_sublist l)

theorem mem_badd (b : List String) (s u : String) :
    u ∈ badd b s ↔ u = s ∨ u ∈ b := by
  rw [badd]
  by_cases h : s ∈ b
  · simp only [if_pos h]
    constructor
    · exact Or.inr
    · rintro (h2 | h2)
      · rw [h2]; exact h
      · exact h2
  · simp [h]

theorem badd_nodup (b : List String) (s : String) (h : b.Nodup) :
    (badd b s).Nodup := by
  rw [badd]
  by_cases hs : s ∈ b
  · simpa [hs] using h
  · simp only [hs, if_false]
    exact List.nodup_cons.mpr ⟨hs, h⟩

theorem badd_ne_nil (b : List String) (s : String) : badd b s ≠ [] := by
  rw [badd]
  by_cases hs : s ∈ b
  · simp only [if_pos hs]
    intro hc
    rw [hc] at hs
    exact absurd hs (List.not_mem_nil s)
  · simp [hs]

theorem mem_filter_ne (b : List String) (s u : String) :
    u ∈ b.filter (fun x => decide (x ≠ s)) ↔ u ∈ b ∧ u ≠ s := by
  simp [List.mem_filter]

/-! Lemmas about the removal step of `set`/`delete`. -/

theorem alookup_removeSub_filter (ri : List (ℚ × List String)) (ov : ℚ)
    (s : String) (bov : List String) (hov : alookup ri ov = some bov) (x : ℚ) :
    alookup (aupd ri ov (fun b => b.filter (fun y => decide (y ≠ s)))) x
      = if x = ov then some (bov.filter (fun y => decide (y ≠ s)))
        else alookup ri x := by
  rw [alookup_aupd]
  by_cases hx : x = ov
  · rw [if_pos hx, if_pos hx, hx, hov]
    rfl
  · rw [if_neg hx, if_neg hx]

/-- Membership in the buckets after the removal step: the subject is removed
from the old value's bucket and every other bucket is unchanged (bucket
deletion only drops an already-empty bucket). -/
theorem mem_bget_removeSub (ri : List (ℚ × List String)) (ov : ℚ) (s : String)
    (w : ℚ) (u : String) :
    u ∈ bget (removeSub ri ov s) w ↔ u ∈ bget ri w ∧ (w = ov → u ≠ s) := by
  rcases hov : alookup ri ov with _ | bov
  · rw [removeSub, hov]
    simp only [Option.isSome_none, Bool.false_eq_true, if_false]
    constructor
    · intro hu
      refine ⟨hu, ?_⟩
      intro hw _
      rw [hw, bget, hov] at hu
      exact absurd hu (List.not_mem_nil u)
    · exact fun h => h.1
  · rw [removeSub, hov]
    simp only [Option.isSome_some, if_true]
    have hlr := alookup_removeSub_filter ri ov s bov hov
    have hbov : bget ri ov = bov := by rw [bget, hov]; rfl
    by_cases hfb : (alookup (aupd ri ov (fun b => b.filter
        (fun y => decide (y ≠ s)))) ov).getD [] = []
    · rw [if_pos hfb]
      have hfb2 : bov.filter (fun y => decide (y ≠ s)) = [] := by
        rw [hlr ov, if_pos rfl] at hfb
        simpa using hfb
      rw [bget, alookup_aerase]
      by_cases hw : w = ov
      · rw [if_pos hw]
        constructor
        · intro hu
          exact absurd hu (List.not_mem_nil u)
        · rintro ⟨hu, hne⟩
          have hus : u ≠ s := hne hw
          have : u ∈ bov.filter (fun y => decide (y ≠ s)) :=
            (mem_filter_ne bov s u).mpr ⟨by rw [hw, hbov] at hu; exact hu, hus⟩
          rw [hfb2] at this
          exact absurd this (List.not_mem_nil u)
      · rw [if_neg hw, hlr w, if_neg hw]
        constructor
        · intro hu
          exact ⟨hu, fun hc => absurd hc hw⟩
        · exact fun h => h.1
    · rw [if_neg hfb, bget, hlr w]
      by_cases hw : w = ov
      · rw [if_pos hw]
        show u ∈ bov.filter (fun y => decide (y ≠ s)) ↔ _
        rw [mem_filter_ne]
        constructor
        · rintro ⟨hu, hus⟩
          exact ⟨by rw [hw, hbov]; exact hu, fun _ => hus⟩
        · rintro ⟨hu, hne⟩
          exact ⟨by rw [hw, hbov] at hu; exact hu, hne hw⟩
      · rw [if_neg hw]
        constructor
        · intro hu
          exact ⟨hu, fun hc => absurd hc hw⟩
        · exact fun h => h.1

theorem removeSub_lookNE (ri : List (ℚ × List String)) (ov : ℚ) (s : String)
    (h : ∀ w b, alookup ri w = some b → b ≠ []) :
    ∀ w b, alookup (removeSub ri ov s) w = some b → b ≠ [] := by
  intro w b hb
  rcases hov : alookup ri ov with _ | bov
  · rw [removeSub, hov] at hb
    simp only [Option.isSome_none, Bool.false_eq_true, if_false] at hb
    exact h w b hb
  · rw [removeSub, hov] at hb
    simp only [Option.isSome_some, if_true] at hb
    have hlr := alookup_removeSub_filter ri ov s bov hov
    by_cases hfb : (alookup (aupd ri ov (fun b => b.filter
        (fun y => decide (y ≠ s)))) ov).getD [] = []
    · rw [if_pos hfb, alookup_aerase] at hb
      by_cases hw : w = ov
      · rw [if_pos hw] at hb
        cases hb
      · rw [if_neg hw, hlr w, if_neg hw] at hb
        exact h w b hb
    · rw [if_neg hfb, hlr w] at hb
      by_cases hw : w = ov
      · rw [if_pos hw] at hb
        have hbval : bov.filter (fun y => decide (y ≠ s)) = b := by
          simpa using hb
        rw [hlr ov, if_pos rfl] at hfb
        intro hc
        rw [hbval, hc] at hfb
        simp at hfb
      · rw [if_neg hw] at hb
        exact h w b hb

theorem removeSub_lookND (ri : List (ℚ × List String)) (ov : ℚ) (s : String)
    (h : ∀ w b, alookup ri w = some b → b.Nodup) :
    ∀ w b, alookup (removeSub ri ov s) w = some b → b.Nodup := by
  intro w b hb
  rcases hov : alookup ri ov with _ | bov
  · rw [removeSub, hov] at hb
    simp only [Option.isSome_none, Bool.false_eq_true, if_false] at hb
    exact h w b hb
  · rw [removeSub, hov] at hb
    simp only [Option.isSome_some, if_true] at hb
    have hlr := alookup_removeSub_filter ri ov s bov hov
    have hbovND : bov.Nodup := h ov bov hov
    by_cases hfb : (alookup (aupd ri ov (fun b => b.filter
        (fun y => decide (y ≠ s)))) ov).getD [] = []
    · rw [if_pos hfb, alookup_aerase] at hb
      by_cases hw : w = ov
      · rw [if_pos hw] at hb
        cases hb
      · rw [if_neg hw, hlr w, if_neg hw] at hb
        exact h w b hb
    · rw [if_neg hfb, hlr w] at hb
      by_cases hw : w = ov
      · rw [if_pos hw] at hb
        have hbval : bov.filter (fun y => decide (y ≠ s)) = b := by
          simpa using hb
        rw [← hbval]
        exact List.Nodup.filter _ hbovND
      · rw [if_neg hw] at hb
        exact h w b hb

theorem removeSub_keysND (ri : List (ℚ × List String)) (ov : ℚ) (s : String)
    (h : (ri.map Prod.fst).Nodup) :
    ((removeSub ri ov s).map Prod.fst).Nodup := by
  rw [removeSub]
  by_cases hsome : (alookup ri ov).isSome
  · rw [if_pos hsome]
    by_cases hfb : (alookup (aupd ri ov (fun b => b.filter
        (fun y => decide (y ≠ s)))) ov).getD [] = []
    · rw [if_pos hfb]
      apply keys_aerase_nodup
      rw [keys_aupd]
      exact h
    · rw [if_neg hfb, keys_aupd]
      exact h
  · rw [if_neg hsome]
    exact h

/-! The bijection invariant of the numeric plugin. -/

/-- Structural well-formedness plus the primary/secondary bijection: the
value keys of the index are distinct, no stored bucket is empty or holds
duplicates, and a subject maps to a value in the primary map exactly when it
sits in that value's bucket. -/
structure Inv (st : NumericState) : Prop where
  keysND : (st.range_index.map Prod.fst).Nodup
  lookNE : ∀ w b, alookup st.range_index w = some b → b ≠ []
  lookND : ∀ w b, alookup st.range_index w = some b → b.Nodup
  mem_iff : ∀ u w, alookup st.data u = some w ↔ u ∈ bget st.range_index w

theorem mutateSet_eq_some (st : NumericState) (s : String) (v ov : ℚ)
    (hold : alookup st.data s = some ov) :
    mutateSet st s v
      = ⟨ains st.data s v,
         aupd (if (alookup (removeSub st.range_index ov s) v).isSome
            then removeSub st.range_index ov s
            else (v, []) :: removeSub st.range_index ov s) v (fun b => badd b s),
         st.minmax⟩ := by
  rw [mutateSet, hold]

theorem mutateSet_eq_none (st : NumericState) (s : String) (v : ℚ)
    (hold : alookup st.data s = none) :
    mutateSet st s v
      = ⟨ains st.data s v,
         aupd (if (alookup st.range_index v).isSome
            then st.range_index
            else (v, []) :: st.range_index) v (fun b => badd b s),
         st.minmax⟩ := by
  rw [mutateSet, hold]

/-- The add step of `set` (store the new value, ensure the bucket, add the
subject) restores the invariant over any cleaned index `ri1` from whose
every bucket the subject is absent and which is in bijection with the
original data on other subjects. -/
theorem inv_addStep (data : List (String × ℚ)) (mm : Option (Option ℚ × Option ℚ))
    (s : String) (v : ℚ) (ri1 : List (ℚ × List String))
    (hKND : (ri1.map Prod.fst).Nodup)
    (hNE : ∀ w b, alookup ri1 w = some b → b ≠ [])
    (hND : ∀ w b, alookup ri1 w = some b → b.Nodup)
    (hs_not : ∀ w, s ∉ bget ri1 w)
    (hkeep : ∀ u w, u ≠ s → (alookup data u = some w ↔ u ∈ bget ri1 w)) :
    Inv ⟨ains data s v,
      aupd (if (alookup ri1 v).isSome then ri1 else (v, []) :: ri1) v
        (fun b => badd b s), mm⟩ := by
  have hri3 : ∀ x, alookup (if (alookup ri1 v).isSome then ri1
      else (v, []) :: ri1) x = if x = v then some (bget ri1 v) else alookup ri1 x := by
    intro x
    by_cases hv : (alookup ri1 v).isSome
    · rw [if_pos hv]
      by_cases hx : x = v
      · rcases hlv : alookup ri1 v with _ | bv
        · rw [hlv] at hv; cases hv
        · rw [if_pos hx, hx, hlv, bget, hlv]
          rfl
      · rw [if_neg hx]
    · rw [if_neg hv]
      have hlv : alookup ri1 v = none := Option.not_isSome_iff_eq_none.mp hv
      rw [alookup]
      by_cases hx : x = v
      · rw [if_pos hx.symm, if_pos hx, bget, hlv]
        rfl
      · rw [if_neg (fun hc : v = x => hx hc.symm), if_neg hx]
  have hri4 : ∀ x, alookup (aupd (if (alookup ri1 v).isSome then ri1
        else (v, []) :: ri1) v (fun b => badd b s)) x
      = if x = v then some (badd (bget ri1 v) s) else alookup ri1 x := by
    intro x
    rw [alookup_aupd]
    by_cases hx : x = v
    · rw [if_pos hx, if_pos hx, hx, hri3 v, if_pos rfl]
      rfl
    · rw [if_neg hx, if_neg hx, hri3 x, if_neg hx]
  have hbgND : (bget ri1 v).Nodup := by
    rcases hlv : alookup ri1 v with _ | bb
    · rw [bget, hlv]
      exact List.nodup_nil
    · rw [bget, hlv]
      exact hND v bb hlv
  refine ⟨?_, ?_, ?_, ?_⟩
  · show ((aupd (if (alookup ri1 v).isSome then ri1 else (v, []) :: ri1) v
      (fun b => badd b s)).map Prod.fst).Nodup
    rw [keys_aupd]
    by_cases hv : (alookup ri1 v).isSome
    · rw [if_pos hv]
      exact hKND
    · rw [if_neg hv]
      have hlv : alookup ri1 v = none := Option.not_isSome_iff_eq_none.mp hv
      rw [List.map_cons]
      exact List.nodup_cons.mpr ⟨(alookup_eq_none_iff ri1 v).mp hlv, hKND⟩
  · intro w b hb
    rw [hri4 w] at hb
    by_cases hw : w = v
    · rw [if_pos hw] at hb
      have : badd (bget ri1 v) s = b := by simpa using hb
      rw [← this]
      exact badd_ne_nil _ s
    · rw [if_neg hw] at hb
      exact hNE w b hb
  · intro w b hb
    rw [hri4 w] at hb
    by_cases hw : w = v
    · rw [if_pos hw] at hb
      have : badd (bget ri1 v) s = b := by simpa using hb
      rw [← this]
      exact badd_nodup _ s hbgND
    · rw [if_neg hw] at hb
      exact hND w b hb
  · intro u w
    show alookup (ains data s v) u = some w ↔
      u ∈ bget (aupd (if (alookup ri1 v).isSome then ri1 else (v, []) :: ri1) v
        (fun b => badd b s)) w
    rw [alookup_ains, bget, hri4 w]
    by_cases hu : u = s
    · rw [if_pos hu]
      by_cases hw : w = v
      · rw [if_pos hw]
        simp only [Option.getD_some, Option.some.injEq]
        constructor
        · intro _
          exact (mem_badd _ s u).mpr (Or.inl hu)
        · intro _
          exact hw.symm
      · rw [if_neg hw]
        constructor
        · intro hvw
          exact absurd (by simpa using hvw) (fun hc : v = w => hw hc.symm)
        · intro hmem
          rw [hu] at hmem
          exact absurd hmem (hs_not w)
    · rw [if_neg hu]
      by_cases hw : w = v
      · rw [if_pos hw]
        simp only [Option.getD_some]
        rw [mem_badd]
        constructor
        · intro hl
          refine Or.inr ((hkeep u v hu).mp ?_)
          rw [← hw]
          exact hl
        · rintro (hus | hmem)
          · exact absurd hus hu
          · rw [hw]
            exact (hkeep u v hu).mpr hmem
      · rw [if_neg hw]
        exact hkeep u w hu

theorem inv_mutateSet (st : NumericState) (s : String) (v : ℚ) (h : Inv st) :
    Inv (mutateSet st s v) := by
  rcases hold : alookup st.data s with _ | ov
  · rw [mutateSet_eq_none st s v hold]
    refine inv_addStep st.data st.minmax s v st.range_index h.keysND h.lookNE
      h.lookND ?_ ?_
    · intro w hc
      have := (h.mem_iff s w).mpr hc
      rw [hold] at this
      cases this
    · intro u w _
      exact h.mem_iff u w
  · rw [mutateSet_eq_some st s v ov hold]
    refine inv_addStep st.data st.minmax s v (removeSub st.range_index ov s)
      (removeSub_keysND _ _ _ h.keysND) (removeSub_lookNE _ _ _ h.lookNE)
      (removeSub_lookND _ _ _ h.lookND) ?_ ?_
    · intro w hc
      rcases (mem_bget_removeSub _ _ _ _ _).mp hc with ⟨hmem, himp⟩
      by_cases hw : w = ov
      · exact himp hw rfl
      · have := (h.mem_iff s w).mpr hmem
        rw [hold] at this
        have hov : ov = w := by simpa using this
        exact hw hov.symm
    · intro u w hu
      rw [show (u ∈ bget (removeSub st.range_index ov s) w)
          = (u ∈ bget st.range_index w ∧ (w = ov → u ≠ s))
        from propext (mem_bget_removeSub _ _ _ _ _)]
      constructor
      · intro hl
        exact ⟨(h.mem_iff u w).mp hl, fun _ => hu⟩
      · rintro ⟨hmem, _⟩
        exact (h.mem_iff u w).mpr hmem

theorem ndelete_eq_none (st : NumericState) (s : String)
    (hold : alookup st.data s = none) : (ndelete st s) = (st, false) := by
  rw [ndelete, hold]

theorem ndelete_eq_some (st : NumericState) (s : String) (ov : ℚ)
    (hold : alookup st.data s = some ov) :
    (ndelete st s)
      = (⟨aerase st.data s, removeSub st.range_index ov s, st.minmax⟩, true) := by
  rw [ndelete, hold]

theorem inv_ndelete (st : NumericState) (s : String) (h : Inv st) :
    Inv (ndelete st s).1 := by
  rcases hold : alookup st.data s with _ | ov
  · rw [ndelete_eq_none st s hold]
    exact h
  · rw [ndelete_eq_some st s ov hold]
    refine ⟨removeSub_keysND _ _ _ h.keysND, removeSub_lookNE _ _ _ h.lookNE,
      removeSub_lookND _ _ _ h.lookND, ?_⟩
    intro u w
    show alookup (aerase st.data s) u = some w
      ↔ u ∈ bget (removeSub st.range_index ov s) w
    rw [alookup_aerase,
      show (u ∈ bget (removeSub st.range_index ov s) w)
          = (u ∈ bget st.range_index w ∧ (w = ov → u ≠ s))
        from propext (mem_bget_removeSub _ _ _ _ _)]
    by_cases hu : u = s
    · rw [if_pos hu]
      constructor
      · intro hc
        cases hc
      · rintro ⟨hmem, himp⟩
        by_cases hw : w = ov
        · exact absurd hu (himp hw)
        · have := (h.mem_iff u w).mpr hmem
          rw [hu, hold] at this
          have hov : ov = w := by simpa using this
          exact absurd hov.symm hw
    · rw [if_neg hu]
      constructor
      · intro hl
        exact ⟨(h.mem_iff u w).mp hl, fun _ => hu⟩
      · rintro ⟨hmem, _⟩
        exact (h.mem_iff u w).mpr hmem

/-! Lemmas about the snapshot/restore cycle. -/

theorem foldl_congr_mem {α β : Type} (f g : β → α → β) (l : List α)
    (h : ∀ (acc : β), ∀ a ∈ l, f acc a = g acc a) :
    ∀ acc, l.foldl f acc = l.foldl g acc := by
  induction l with
  | nil => intro acc; rfl
  | cons a l ih =>
    intro acc
    rw [List.foldl_cons, List.foldl_cons, h acc a (List.mem_cons_self a l)]
    exact ih (fun acc2 b hb => h acc2 b (List.mem_cons_of_mem a hb)) (g acc a)

/-- On entries whose keys are fixed by the conversion and whose buckets are
duplicate-free, the restore loop degenerates to plain dict assignments. -/
theorem restoreIndex_congr (entries : List (ℚ × List String))
    (hfix : ∀ p ∈ entries, strFloatRoundtrip p.1 = p.1)
    (hnd : ∀ p ∈ entries, p.2.Nodup) :
    restoreIndex entries = entries.foldl (fun acc p => ains acc p.1 p.2) [] := by
  rw [restoreIndex]
  exact foldl_congr_mem _ _ entries
    (fun acc p hp => by rw [hfix p hp, List.dedup_eq_self.mpr (hnd p hp)]) []

theorem keys_ains_nodup {α β : Type} [DecidableEq α] (l : List (α × β)) (k : α)
    (v : β) (h : (l.map Prod.fst).Nodup) : ((ains l k v).map Prod.fst).Nodup := by
  rw [ains, List.map_cons]
  refine List.nodup_cons.mpr ⟨?_, keys_aerase_nodup l k h⟩
  intro hc
  have hnone : alookup (aerase l k) k = none := by
    rw [alookup_aerase, if_pos rfl]
  exact ((alookup_eq_none_iff _ _).mp hnone) hc

theorem foldAins_keysND (l : List (ℚ × List String)) :
    ∀ acc : List (ℚ × List String), (acc.map Prod.fst).Nodup →
      ((l.foldl (fun acc p => ains acc p.1 p.2) acc).map Prod.fst).Nodup := by
  induction l with
  | nil => intro acc h; exact h
  | cons p l ih =>
    intro acc h
    rw [List.foldl_cons]
    exact ih (ains acc p.1 p.2) (keys_ains_nodup acc p.1 p.2 h)

/-- Looking a key up in a left fold of dict assignments over entries with
distinct keys finds the entry's bucket, and falls back to the accumulator
for unlisted keys. -/
theorem foldAins_alookup (l : List (ℚ × List String)) :
    (l.map Prod.fst).Nodup →
    ∀ (acc : List (ℚ × List String)) (w : ℚ),
      alookup (l.foldl (fun acc p => ains acc p.1 p.2) acc) w
        = if w ∈ l.map Prod.fst then alookup l w else alookup acc w := by
  induction l with
  | nil =>
    intro _ acc w
    rw [List.foldl_nil, List.map_nil, if_neg (List.not_mem_nil w)]
  | cons p l ih =>
    intro hnd acc w
    rw [List.map_cons, List.nodup_cons] at hnd
    have hcons : alookup (p :: l) w
        = if p.1 = w then some p.2 else alookup l w := rfl
    simp only [List.foldl_cons]
    rw [ih hnd.2, List.map_cons]
    by_cases hwl : w ∈ l.map Prod.fst
    · have hne : p.1 ≠ w := fun hc => hnd.1 (hc ▸ hwl)
      rw [if_pos hwl, if_pos (List.mem_cons_of_mem p.1 hwl), hcons, if_neg hne]
    · rw [if_neg hwl, alookup_ains]
      by_cases hwp : w = p.1
      · rw [if_pos hwp, if_pos (List.mem_cons.mpr (Or.inl hwp)), hcons,
          if_pos hwp.symm]
      · have hnotin : ¬ w ∈ p.1 :: l.map Prod.fst := by
          intro hc
          rcases List.mem_cons.mp hc with hc | hc
          · exact hwp hc
          · exact hwl hc
        rw [if_neg hwp, if_neg hnotin]

theorem insertSorted_perm (p : ℚ × List String) (l : List (ℚ × List String)) :
    (insertSorted p l).Perm (p :: l) := by
  induction l with
  | nil => exact List.Perm.refl _
  | cons q l ih =>
    rw [insertSorted]
    by_cases h : p.1 ≤ q.1
    · rw [if_pos h]
    · rw [if_neg h]
      exact (List.Perm.cons q ih).trans (List.Perm.swap p q l)

theorem sortByKey_perm (l : List (ℚ × List String)) :
    (sortByKey l).Perm l := by
  induction l with
  | nil => exact List.Perm.refl _
  | cons p l ih =>
    rw [sortByKey]
    exact (insertSorted_perm p (sortByKey l)).trans (List.Perm.cons p ih)

/-- Association-list lookup is invariant under permutation when the keys are
distinct. -/
theorem alookup_perm {α β : Type} [DecidableEq α] (l1 l2 : List (α × β))
    (h : l1.Perm l2) (hnd : (l1.map Prod.fst).Nodup) (w : α) :
    alookup l1 w = alookup l2 w := by
  have hnd2 : (l2.map Prod.fst).Nodup := ((h.map Prod.fst).nodup_iff).mp hnd
  rcases hl : alookup l1 w with _ | b
  · have hw : w ∉ l1.map Prod.fst := (alookup_eq_none_iff _ _).mp hl
    have hw2 : w ∉ l2.map Prod.fst := fun hc =>
      hw (((h.map Prod.fst).mem_iff).mpr hc)
    exact ((alookup_eq_none_iff _ _).mpr hw2).symm
  · have hmem2 : (w, b) ∈ l2 := (h.mem_iff).mp (alookup_mem l1 w b hl)
    exact (mem_alookup l2 w b hnd2 hmem2).symm

/-- When every bucket key of a well-formed index is a fixed point of the
conversion, restoring the sorted snapshot entries changes no lookup, and the
rebuilt index again has distinct keys. -/
theorem restore_props (ri : List (ℚ × List String))
    (hnd : (ri.map Prod.fst).Nodup)
    (hfix : ∀ w ∈ ri.map Prod.fst, strFloatRoundtrip w = w)
    (hbnd : ∀ p ∈ ri, p.2.Nodup) :
    (∀ w, alookup (restoreIndex (sortByKey ri)) w = alookup ri w) ∧
    ((restoreIndex (sortByKey ri)).map Prod.fst).Nodup := by
  have hperm := sortByKey_perm ri
  have hnds : ((sortByKey ri).map Prod.fst).Nodup :=
    ((hperm.map Prod.fst).nodup_iff).mpr hnd
  have hfixs : ∀ p ∈ sortByKey ri, strFloatRoundtrip p.1 = p.1 := by
    intro p hp
    exact hfix p.1 (List.mem_map_of_mem Prod.fst (hperm.mem_iff.mp hp))
  have hbnds : ∀ p ∈ sortByKey ri, p.2.Nodup := by
    intro p hp
    exact hbnd p (hperm.mem_iff.mp hp)
  have hcongr := restoreIndex_congr (sortByKey ri) hfixs hbnds
  constructor
  · intro w
    rw [hcongr, foldAins_alookup (sortByKey ri) hnds [] w]
    by_cases hw : w ∈ (sortByKey ri).map Prod.fst
    · rw [if_pos hw]
      exact alookup_perm (sortByKey ri) ri hperm hnds w
    · rw [if_neg hw]
      have hw2 : w ∉ ri.map Prod.fst := fun hc =>
        hw (((hperm.map Prod.fst).mem_iff).mpr hc)
      exact ((alookup_eq_none_iff ri w).mpr hw2).symm
  · rw [hcongr]
    exact foldAins_keysND (sortByKey ri) [] List.nodup_nil

/-! Key provenance: every index key is a value that entered through set. -/

theorem keys_aerase_subset {α β : Type} [DecidableEq α] (l : List (α × β))
    (k : α) : ∀ w ∈ (aerase l k).map Prod.fst, w ∈ l.map Prod.fst := by
  intro w hw
  obtain ⟨p, hp, hpw⟩ := List.mem_map.mp hw
  exact hpw ▸ List.mem_map_of_mem Prod.fst (List.mem_of_mem_filter hp)

theorem keys_removeSub_subset (ri : List (ℚ × List String)) (ov : ℚ)
    (s : String) :
    ∀ w ∈ (removeSub ri ov s).map Prod.fst, w ∈ ri.map Prod.fst := by
  intro w hw
  rw [removeSub] at hw
  by_cases h1 : (alookup ri ov).isSome
  · rw [if_pos h1] at hw
    by_cases h2 : (alookup (aupd ri ov (fun b => b.filter
        (fun u => decide (u ≠ s)))) ov).getD [] = []
    · rw [if_pos h2] at hw
      have hsub := keys_aerase_subset _ ov w hw
      rw [keys_aupd] at hsub
      exact hsub
    · rw [if_neg h2, keys_aupd] at hw
      exact hw
  · rw [if_neg h1] at hw
    exact hw

theorem keys_mutateSet_subset (st : NumericState) (s : String) (v : ℚ) :
    ∀ w ∈ (mutateSet st s v).range_index.map Prod.fst,
      w = v ∨ w ∈ st.range_index.map Prod.fst := by
  intro w hw
  rcases hold : alookup st.data s with _ | ov
  · rw [mutateSet_eq_none st s v hold] at hw
    have hw2 : w ∈ (aupd (if (alookup st.range_index v).isSome
        then st.range_index else (v, []) :: st.range_index) v
        (fun b => badd b s)).map Prod.fst := hw
    rw [keys_aupd] at hw2
    by_cases hv : (alookup st.range_index v).isSome
    · rw [if_pos hv] at hw2
      exact Or.inr hw2
    · rw [if_neg hv, List.map_cons] at hw2
      rcases List.mem_cons.mp hw2 with hc | hc
      · exact Or.inl hc
      · exact Or.inr hc
  · rw [mutateSet_eq_some st s v ov hold] at hw
    have hw2 : w ∈ (aupd (if (alookup (removeSub st.range_index ov s) v).isSome
        then removeSub st.range_index ov s
        else (v, []) :: removeSub st.range_index ov s) v
        (fun b => badd b s)).map Prod.fst := hw
    rw [keys_aupd] at hw2
    by_cases hv : (alookup (removeSub st.range_index ov s) v).isSome
    · rw [if_pos hv] at hw2
      exact Or.inr (keys_removeSub_subset st.range_index ov s w hw2)
    · rw [if_neg hv, List.map_cons] at hw2
      rcases List.mem_cons.mp hw2 with hc | hc
      · exact Or.inl hc
      · exact Or.inr (keys_removeSub_subset st.range_index ov s w hc)

/-- Every bucket key of the state is a fixed point of the snapshot/restore
key conversion (true whenever all values fed to set were). -/
def KeysFix (st : NumericState) : Prop :=
  ∀ w ∈ st.range_index.map Prod.fst, strFloatRoundtrip w = w

/-- The per-operation value condition of the amended C4: a set value must
survive the conversion unchanged (all Python floats do, and all ints of
magnitude at most 2^53). -/
def opValueOK : NOp → Prop
  | NOp.nopset _ v => strFloatRoundtrip v = v
  | NOp.nopdel _ => True
  | NOp.nopsnap => True

instance opValueOK_decidable : ∀ op : NOp, Decidable (opValueOK op)
  | NOp.nopset _ v => inferInstanceAs (Decidable (strFloatRoundtrip v = v))
  | NOp.nopdel _ => inferInstanceAs (Decidable True)
  | NOp.nopsnap => inferInstanceAs (Decidable True)

theorem nset_ok (st : NumericState) (s : String) (v : ℚ) (st2 : NumericState)
    (h : nset st s v = .ok st2) : st2 = mutateSet st s v := by
  rw [nset] at h
  split at h
  · simp at h
  · split at h
    · simp at h
    · split at h
      · simp at h
      · simpa using h.symm

theorem keys_ndelete_subset (st : NumericState) (s : String) :
    ∀ w ∈ (ndelete st s).1.range_index.map Prod.fst,
      w ∈ st.range_index.map Prod.fst := by
  intro w hw
  rcases hold : alookup st.data s with _ | ov
  · rw [ndelete_eq_none st s hold] at hw
    exact hw
  · rw [ndelete_eq_some st s ov hold] at hw
    have hw2 : w ∈ (removeSub st.range_index ov s).map Prod.fst := hw
    exact keys_removeSub_subset st.range_index ov s w hw2

/-- One operation whose set value survives the key conversion preserves the
invariant together with the key-fixedness of the index. -/
theorem inv2_applyOp (st : NumericState) (op : NOp) (h : Inv st)
    (hfix : KeysFix st) (hop : opValueOK op) :
    Inv (applyOp st op) ∧ KeysFix (applyOp st op) := by
  cases op with
  | nopset s v =>
    have hv : strFloatRoundtrip v = v := hop
    rcases hns : nset st s v with e | st2
    · simp only [applyOp, hns]
      exact ⟨h, hfix⟩
    · simp only [applyOp, hns]
      rw [nset_ok st s v st2 hns]
      refine ⟨inv_mutateSet st s v h, ?_⟩
      intro w hw
      rcases keys_mutateSet_subset st s v w hw with hwv | hwm
      · rw [hwv]
        exact hv
      · exact hfix w hwm
  | nopdel s =>
    simp only [applyOp]
    refine ⟨inv_ndelete st s h, ?_⟩
    intro w hw
    exact hfix w (keys_ndelete_subset st s w hw)
  | nopsnap =>
    have hent : ∀ p ∈ st.range_index, p.2.Nodup := by
      intro p hp
      exact h.lookND p.1 p.2 (mem_alookup _ p.1 p.2 h.keysND hp)
    obtain ⟨hlk, hknd⟩ := restore_props st.range_index h.keysND hfix hent
    have happ : applyOp st .nopsnap
        = ⟨st.data, restoreIndex (sortByKey st.range_index), st.minmax⟩ := rfl
    rw [happ]
    refine ⟨⟨hknd, ?_, ?_, ?_⟩, ?_⟩
    · intro w b hb
      have hb2 : alookup (restoreIndex (sortByKey st.range_index)) w
          = some b := hb
      rw [hlk w] at hb2
      exact h.lookNE w b hb2
    · intro w b hb
      have hb2 : alookup (restoreIndex (sortByKey st.range_index)) w
          = some b := hb
      rw [hlk w] at hb2
      exact h.lookND w b hb2
    · intro u w
      show alookup st.data u = some w
        ↔ u ∈ bget (restoreIndex (sortByKey st.range_index)) w
      rw [bget, hlk w]
      exact h.mem_iff u w
    · intro w hw
      have hw2 : w ∈ (restoreIndex (sortByKey st.range_index)).map Prod.fst := hw
      obtain ⟨p, hp, hpw⟩ := List.mem_map.mp hw2
      have hsome := mem_alookup _ p.1 p.2 hknd hp
      rw [hlk p.1] at hsome
      have hmem := alookup_mem _ p.1 p.2 hsome
      rw [← hpw]
      exact hfix p.1 (List.mem_map_of_mem Prod.fst hmem)

theorem inv_init (mm : Option (Option ℚ × Option ℚ)) : Inv (ninit mm) := by
  refine ⟨?_, ?_, ?_, ?_⟩
  · exact List.nodup_nil
  · intro w b hb
    cases hb
  · intro w b hb
    cases hb
  · intro u w
    show alookup ([] : List (String × ℚ)) u = some w
      ↔ u ∈ bget ([] : List (ℚ × List String)) w
    rw [alookup, bget, alookup]
    simp

theorem inv2_runOps (ops : List NOp) :
    ∀ st : NumericState, Inv st → KeysFix st → (∀ op ∈ ops, opValueOK op) →
      Inv (runOps ops st) ∧ KeysFix (runOps ops st) := by
  induction ops with
  | nil =>
    intro st h hf _
    exact ⟨h, hf⟩
  | cons op ops ih =>
    intro st h hf hops
    obtain ⟨h2, hf2⟩ := inv2_applyOp st op h hf (hops op (List.mem_cons_self op ops))
    exact ih (applyOp st op) h2 hf2 (fun o ho => hops o (List.mem_cons_of_mem op ho))

/-- Counterexample to C4 as stated: set("a", 2^60) and set("b", 2^60 + 1)
(2^60 = 1152921504606846976) store two distinct int-keyed buckets, but a
snapshot/restore cycle sends both keys through str-then-float, which rounds
the 61-bit int 2^60 + 1 to the double 2^60; the restore loop's later
assignment overwrites the earlier bucket, so after the cycle the subject
"a" still maps to 2^60 in the primary map while bucket 2^60 holds only
"b" — "a" is in no bucket at all, refuting the bijection. -/
theorem claim_c4_counterexample :
    alookup (runOps [.nopset "a" 1152921504606846976,
        .nopset "b" 1152921504606846977, .nopsnap]
        (ninit (some (none, none)))).data "a" = some 1152921504606846976 ∧
    ¬ "a" ∈ BucketOf (runOps [.nopset "a" 1152921504606846976,
        .nopset "b" 1152921504606846977, .nopsnap]
        (ninit (some (none, none)))) 1152921504606846976 := by
  constructor
  · decide
  · decide

/-- C4 amended: after every finite sequence of set/delete calls and
snapshot/restore cycles on a fresh NumericRangeDS (with any bound-attribute
status) in which every value passed to set is unchanged by the snapshot
str-then-float key conversion (all Python floats, and all ints of magnitude
at most 2^53), the bijection invariant holds: a subject maps to a value in
the primary map exactly when it is a member of the bucket keyed by that
value; a subject is in at most one bucket (the one keyed by its primary-map
value); the value keys of the secondary index are pairwise distinct (so
that bucket is unique as an index entry); and no stored bucket is empty.
Without the value restriction a snapshot/restore cycle can collapse
distinct buckets and break the bijection. -/
theorem claim_c4_bijection_amended (mm : Option (Option ℚ × Option ℚ))
    (ops : List NOp) (hvals : ∀ op ∈ ops, opValueOK op) :
    (∀ u w, alookup (runOps ops (ninit mm)).data u = some w
      ↔ u ∈ BucketOf (runOps ops (ninit mm)) w) ∧
    (∀ u w1 w2, u ∈ BucketOf (runOps ops (ninit mm)) w1
      → u ∈ BucketOf (runOps ops (ninit mm)) w2 → w1 = w2) ∧
    ((runOps ops (ninit mm)).range_index.map Prod.fst).Nodup ∧
    (∀ p ∈ (runOps ops (ninit mm)).range_index, p.2 ≠ []) := by
  have hfix0 : KeysFix (ninit mm) := by
    intro w hw
    exact absurd hw (List.not_mem_nil w)
  obtain ⟨hinv, _⟩ := inv2_runOps ops (ninit mm) (inv_init mm) hfix0 hvals
  refine ⟨hinv.mem_iff, ?_, hinv.keysND, ?_⟩
  · intro u w1 w2 h1 h2
    have e1 := (hinv.mem_iff u w1).mpr h1
    have e2 := (hinv.mem_iff u w2).mpr h2
    rw [e1] at e2
    simpa using e2
  · intro p hp
    exact hinv.lookNE p.1 p.2 (mem_alookup _ p.1 p.2 hinv.keysND hp)

/-- Witness for C4 amended: after set("alice", 5), set("bob", 5),
delete("alice"), a snapshot/restore cycle — all with conversion-safe
values — the primary entry for "bob" corresponds exactly to membership in
bucket 5. -/
theorem claim_c4_bijection_amended_witness :
    alookup (runOps [.nopset "alice" 5, .nopset "bob" 5, .nopdel "alice",
        .nopsnap] (ninit (some (none, none)))).data "bob" = some 5
      ↔ "bob" ∈ BucketOf (runOps [.nopset "alice" 5, .nopset "bob" 5,
        .nopdel "alice", .nopsnap] (ninit (some (none, none)))) 5 :=
  (claim_c4_bijection_amended (some (none, none))
    [.nopset "alice" 5, .nopset "bob" 5, .nopdel "alice", .nopsnap]
    (by decide)).1 "bob" 5

/-- Discriminator for a raising call. -/
def isErr {ε α : Type} : Except ε α → Bool
  | .error _ => true
  | .ok _ => false

/-- C5: on a state satisfying the bijection invariant,
findSubjectsInRange(lo, hi) raises the ordering validation error exactly
when lo > hi; otherwise it returns the concatenation of the buckets whose
value key lies in [lo, hi], and that list contains a subject exactly when
the subject's stored value v satisfies lo <= v <= hi (the function reads the
index without mutating any state). -/
theorem claim_c5_find_range (st : NumericState) (lo hi : ℚ) (hInv : Inv st) :
    (isErr (find_subjects_in_range st lo hi) = true ↔ lo > hi) ∧
    (¬ lo > hi →
      find_subjects_in_range st lo hi
        = .ok ((st.range_index.filter
            (fun p => decide (lo ≤ p.1 ∧ p.1 ≤ hi))).flatMap (fun p => p.2)) ∧
      ∀ u, u ∈ (st.range_index.filter
          (fun p => decide (lo ≤ p.1 ∧ p.1 ≤ hi))).flatMap (fun p => p.2)
        ↔ ∃ v2, alookup st.data u = some v2 ∧ lo ≤ v2 ∧ v2 ≤ hi) := by
  constructor
  · rw [find_subjects_in_range]
    by_cases hgt : lo > hi
    · rw [if_pos hgt]
      simp [isErr, hgt]
    · rw [if_neg hgt]
      simp [isErr, hgt]
  · intro hle
    refine ⟨by rw [find_subjects_in_range, if_neg hle], ?_⟩
    intro u
    rw [List.mem_flatMap]
    constructor
    · rintro ⟨p, hp, hup⟩
      rw [List.mem_filter] at hp
      obtain ⟨hpmem, hcond⟩ := hp
      have hbounds : lo ≤ p.1 ∧ p.1 ≤ hi := of_decide_eq_true hcond
      have hlk : alookup st.range_index p.1 = some p.2 :=
        mem_alookup _ p.1 p.2 hInv.keysND hpmem
      have hmem : u ∈ bget st.range_index p.1 := by
        rw [bget, hlk]
        exact hup
      exact ⟨p.1, (hInv.mem_iff u p.1).mpr hmem, hbounds.1, hbounds.2⟩
    · rintro ⟨v2, hlk, hlo, hhi⟩
      have hmem : u ∈ bget st.range_index v2 := (hInv.mem_iff u v2).mp hlk
      rcases hb : alookup st.range_index v2 with _ | b
      · rw [bget, hb] at hmem
        exact absurd hmem (List.not_mem_nil u)
      · rw [bget, hb] at hmem
        refine ⟨(v2, b), ?_, hmem⟩
        rw [List.mem_filter]
        exact ⟨alookup_mem _ v2 b hb, decide_eq_true ⟨hlo, hhi⟩⟩

/-- Witness for C5: on the empty configured instance, the inverted range
(1, 0) raises. -/
theorem claim_c5_find_range_witness :
    isErr (find_subjects_in_range (ninit (some (none, none))) 1 0) = true :=
  (claim_c5_find_range (ninit (some (none, none))) 1 0
    (inv_init (some (none, none)))).1.mpr (by norm_num)

/-- C10: on a freshly constructed NumericRangeDS on which configure() has
never run, the bound attributes do not exist, so set(subject, value) with a
numeric value raises AttributeError (before storing anything); and an
instance populated only through restore_snapshot — which sets config but
never the bound attributes — is in the same situation: restore leaves the
attributes missing and set still raises.  Calling configure first is a
precondition for set. -/
theorem claim_c10_unconfigured_set (s : String) (v : ℚ) (snap : NumericSnapshot) :
    (ninit none).minmax = none ∧
    nset (ninit none) s v = .error "AttributeError: min_value" ∧
    (∀ st2, nrestore (ninit none) snap = .ok st2 →
      st2.minmax = none ∧ nset st2 s v = .error "AttributeError: min_value") := by
  refine ⟨rfl, rfl, ?_⟩
  intro st2 h
  rw [nrestore] at h
  split at h
  · have h2 : st2 = ⟨snap.subjects,
        restoreIndex snap.rindex, (ninit none).minmax⟩ := by
      simpa using h.symm
    constructor
    · rw [h2]
      rfl
    · rw [h2]
      rfl
  · simp at h

/-- Witness for C10: set on a fresh unconfigured instance with value 0
raises the missing-attribute error. -/
theorem claim_c10_unconfigured_set_witness :
    nset (ninit none) "x" 0 = .error "AttributeError: min_value" :=
  (claim_c10_unconfigured_set "x" 0 ⟨"NumericRangeDS", [], []⟩).2.1

end Cidsem
